import Mathlib

/-!
# preflightbind: a conn.Bind decorator firing a rate-limited preflight probe

Shallow embedding of `wireguard/preflightbind/preflight_bind.go`.

* A Go `byte` is a `Nat` (a byte value is below 256); a `[]byte` and a Go `string`
  are lists of bytes.  Slice indexing is fallible: an index outside the slice is a
  run-time panic, modelled by `Except Panic`.
* A `time.Duration` is an `Int` of nanoseconds in the signed 64-bit range; a `time.Time`
  is the instant in nanoseconds counted from the zero `Time`; `Time.Sub` saturates.
  A reading of `time.Now()` is an instant not before the Unix epoch (`IsClockReading`).
* The wrapped `conn.Bind` is an arbitrary state machine over a state type `σ`.
* Stateful code is explicit state passing; the goroutine launched by `maybePreflight`
  is recorded as a `Probe` request.
* Calls of `Send` that run at once are goroutines stepping through the statements of the
  rate-limit section (lines 76 to 83) under an explicit mutex, in any interleaving (`Race`).
-/

namespace Preflightbind

/-! ## Bytes, slices, panics -/

/-- A Go `byte`. -/
abbrev Byte := Nat

/-- A run-time panic of the Go program. -/
inductive Panic where
  | indexOutOfRange (i : Nat) (len : Nat)
  | sliceBoundsOutOfRange (lo hi : Nat) (len : Nat)
deriving DecidableEq, Repr

deriving instance DecidableEq for Except

/-- Slice indexing `buf[i]`: panics when `i` is not below `len(buf)`. -/
def index (buf : List Byte) (i : Nat) : Except Panic Byte :=
  match buf.get? i with
  | some b => .ok b
  | none => .error (.indexOutOfRange i buf.length)

/-- Slicing `s[lo:hi]`: panics unless `lo <= hi <= len(s)`. -/
def slice (s : List Byte) (lo hi : Nat) : Except Panic (List Byte) :=
  if lo ≤ hi ∧ hi ≤ s.length then .ok ((s.take hi).drop lo)
  else .error (.sliceBoundsOutOfRange lo hi s.length)

/-! ## Constants of the wireguard `device` package -/

/-- Modelled from the spec: the constant `device.MessageInitiationSize` of the wireguard
`device` package, which is not part of the source; the comment on `handshakeInitiation`
gives it as 148. -/
def device.MessageInitiationSize : Nat := 148

/-- Modelled from the spec: the constant `device.MessageInitiationType` of the wireguard
`device` package, which is not part of the source; the comment on `handshakeInitiation`
gives it as 1. -/
def device.MessageInitiationType : Nat := 1

/-! ## The signature classifier -/

/-- Body of `handshakeInitiation`, over the two ways the code looks at its argument:
`len(buf)` and the indexing `buf[i]`.  The `&&` chain evaluates left to right and stops
at the first false operand. -/
def handshakeInitiationOn (len : Nat) (read : Nat → Except Panic Byte) : Except Panic Bool :=
  if len < device.MessageInitiationSize then
    .ok false
  else do
    let b0 ← read 0
    if b0 == device.MessageInitiationType % 256 then
      let b1 ← read 1
      if b1 == 0 then
        let b2 ← read 2
        if b2 == 0 then
          let b3 ← read 3
          if b3 == 0 then
            pure (decide (len ≥ device.MessageInitiationSize))
          else pure false
        else pure false
      else pure false
    else pure false

/-- The function `handshakeInitiation(buf []byte) bool`. -/
def handshakeInitiation (buf : List Byte) : Except Panic Bool :=
  handshakeInitiationOn buf.length (index buf)

/-- The predicate the specification gives for a handshake initiation: long enough, type tag
in byte 0, three reserved zero bytes. -/
def IsInitiation (buf : List Byte) : Prop :=
  148 ≤ buf.length ∧ buf.get? 0 = some 1 ∧ buf.get? 1 = some 0 ∧
    buf.get? 2 = some 0 ∧ buf.get? 3 = some 0

instance (buf : List Byte) : Decidable (IsInitiation buf) := by
  unfold IsInitiation; infer_instance

/-- Scan of the batch in `maybePreflight`: `seenInit` after the `for ... range bufs` loop,
which breaks at the first buffer that `handshakeInitiation` accepts. -/
def seenInit : List (List Byte) → Except Panic Bool
  | [] => .ok false
  | buf :: rest => do
    if (← handshakeInitiation buf) then pure true else seenInit rest

/-! ## Time -/

/-- A `time.Duration`: nanoseconds, a signed 64-bit integer. -/
abbrev Duration := Int

/-- The smallest `time.Duration`. -/
def minDuration : Duration := -(2 ^ 63)

/-- The largest `time.Duration`. -/
def maxDuration : Duration := 2 ^ 63 - 1

/-- The duration `time.Second`. -/
def Second : Duration := 1000000000

/-- The duration `time.Millisecond`. -/
def Millisecond : Duration := 1000000

/-- A value of type `time.Duration` fits 64 bits. -/
def Duration.InRange (d : Duration) : Prop := minDuration ≤ d ∧ d ≤ maxDuration

instance (d : Duration) : Decidable (Duration.InRange d) := by
  unfold Duration.InRange; infer_instance

/-- A `time.Time`: the instant, in nanoseconds since the zero `Time`
(January 1, year 1, 00:00:00 UTC). -/
abbrev Time := Int

/-- The zero value of `time.Time`, which a Go map yields for an absent key. -/
def Time.zero : Time := 0

/-- The Unix epoch (January 1, 1970 UTC): 62135596800 seconds after the zero `Time`. -/
def unixEpoch : Time := 62135596800 * 1000000000

/-- What `time.Now()` can return: the system clock counts up from the Unix epoch, so a
reading is never before it. -/
def IsClockReading (t : Time) : Prop := unixEpoch ≤ t

instance (t : Time) : Decidable (IsClockReading t) := by
  unfold IsClockReading; infer_instance

/-- The method `t.Sub(u)` of `time.Time`: the duration `t - u`, replaced by the largest
(smallest) duration when it exceeds it (is below it).  Go takes the difference of two
readings of `time.Now()` on the monotonic clock and a difference against the zero `Time`
on the wall clock; here both clocks are one timeline. -/
def Time.Sub (t u : Time) : Duration :=
  if maxDuration < t - u then maxDuration
  else if t - u < minDuration then minDuration
  else t - u

/-! ## The wrapped transport -/

/-- A `netip.Addr`: the 128-bit address and its zone. -/
structure Addr where
  addr : Nat
  z : String
deriving DecidableEq, Repr

/-- A `conn.Endpoint`; the decorator calls only `DstIP()` on it. -/
structure Endpoint where
  DstIP : Addr
  DstToString : String
deriving DecidableEq, Repr

/-- A Go `error`: `none` is `nil`. -/
abbrev Error := Option String

/-- A `conn.ReceiveFunc` handle. -/
abbrev ReceiveFunc := Nat

/-- The interface `conn.Bind`, an external collaborator: any state machine over `σ`. -/
structure ConnBind (σ : Type) where
  Open : Nat → σ → (List ReceiveFunc × Nat × Error) × σ
  Close : σ → Error × σ
  SetMark : Nat → σ → Error × σ
  ParseEndpoint : String → σ → (Option Endpoint × Error) × σ
  BatchSize : σ → Int × σ
  Send : List (List Byte) → Endpoint → σ → Error × σ

/-! ## The decorator -/

/-- The map `lastSent`. -/
abbrev Ledger := Addr → Option Time

/-- Reading `m[k]` on a Go map: the zero value for an absent key. -/
def Ledger.lookup (m : Ledger) (k : Addr) : Time := (m k).getD Time.zero

/-- The assignment `m[k] = t` on a Go map. -/
def Ledger.store (m : Ledger) (k : Addr) (t : Time) : Ledger :=
  fun a => if a = k then some t else m a

/-- The struct `Bind`.  The mutex `mu` is not a field here: the methods below run one call
after the other, and `Race` models the mutex for calls that run at once. -/
structure Bind (σ : Type) where
  inner : ConnBind σ
  port443 : Int
  payload : List Byte
  lastSent : Ledger
  interval : Duration

/-- The goroutine launched by `maybePreflight`: one UDP write of `payload` to
`net.JoinHostPort(ip.String(), strconv.Itoa(port))`. -/
structure Probe where
  ip : Addr
  port : Int
  payload : List Byte
deriving DecidableEq, Repr

/-! ## Hexadecimal decoding (`encoding/hex`) -/

/-- The errors of `encoding/hex`. -/
inductive HexError where
  | InvalidByteError (b : Byte)
  | ErrLength
deriving DecidableEq, Repr

/-- The value of one hexadecimal character in `encoding/hex` (its `reverseHexTable`),
`none` when the byte is not one. -/
def fromHexChar (c : Byte) : Option Byte :=
  if 48 ≤ c ∧ c ≤ 57 then some (c - 48)
  else if 97 ≤ c ∧ c ≤ 102 then some (c - 97 + 10)
  else if 65 ≤ c ∧ c ≤ 70 then some (c - 65 + 10)
  else none

/-- The function `hex.DecodeString` of the Go standard library: the bytes decoded before
the first error, and the error.  Characters are taken in pairs, the byte of a pair is
`(a << 4) | b`; an invalid character is reported before an odd length. -/
def hex.DecodeString : List Byte → List Byte × Option HexError
  | [] => ([], none)
  | [p] =>
    match fromHexChar p with
    | none => ([], some (.InvalidByteError p))
    | some _ => ([], some .ErrLength)
  | p :: q :: rest =>
    match fromHexChar p with
    | none => ([], some (.InvalidByteError p))
    | some a =>
      match fromHexChar q with
      | none => ([], some (.InvalidByteError q))
      | some b =>
        let r := hex.DecodeString rest
        ((((a <<< 4) % 256) ||| b) :: r.1, r.2)

/-- The bytes of a Go string literal. -/
def goString (s : String) : List Byte :=
  (s.data.flatMap String.utf8EncodeChar).map UInt8.toNat

/-- The function `New`.  The result is the pair `(*Bind, error)`: `none` is `nil`. -/
def New {σ : Type} (inner : ConnBind σ) (hexPayload : List Byte) (port : Int)
    (minInterval : Duration) : Except Panic (Option (Bind σ) × Option HexError) := do
  let h := hexPayload
  let marked ←
    if 2 ≤ h.length then do
      let p ← slice h 0 2
      if p = goString "0x" then pure true
      else do
        let q ← slice h 0 2
        pure (decide (q = goString "0X"))
    else pure false
  let h ← if marked then slice h 2 h.length else pure h
  let r := hex.DecodeString h
  match r.2 with
  | some err => pure (none, some err)
  | none =>
    pure (some { inner := inner, port443 := port, payload := r.1, lastSent := fun _ => none,
                 interval := minInterval }, none)

/-- The method `maybePreflight`; `now` is what `time.Now()` returns when it is called.
The result is the decorator after the call and the goroutines launched. -/
def Bind.maybePreflight {σ : Type} (b : Bind σ) (ep : Endpoint) (bufs : List (List Byte))
    (now : Time) : Except Panic (Bind σ × List Probe) := do
  let dst := ep.DstIP
  let seen ← seenInit bufs
  if !seen then
    pure (b, [])
  else
    let last := b.lastSent.lookup dst
    if Time.Sub now last < b.interval then
      pure (b, [])
    else
      let b1 := { b with lastSent := b.lastSent.store dst now }
      pure (b1, [{ ip := dst, port := b1.port443, payload := b1.payload }])

/-- What a call of `Send` leaves behind. -/
structure SendResult (σ : Type) where
  err : Error
  bind : Bind σ
  inner : σ
  probes : List Probe

/-- The method `Send`, run on the wrapped transport in state `s`. -/
def Bind.Send {σ : Type} (b : Bind σ) (bufs : List (List Byte)) (ep : Endpoint) (now : Time)
    (s : σ) : Except Panic (SendResult σ) := do
  let r ← b.maybePreflight ep bufs now
  let out := r.1.inner.Send bufs ep s
  pure { err := out.1, bind := r.1, inner := out.2, probes := r.2 }

/-! ## Reference definitions, test doubles and runs -/

/-- The rate limiter `admit(destination) -> bool` as the specification words it: read the
last-fired timestamp (absent is the zero time), take the elapsed duration, refuse without
mutation when it is below the interval, else record `now` and admit. -/
def admitRef (ledger : Ledger) (destination : Addr) (now : Time) (interval : Duration) :
    Bool × Ledger :=
  let lastFired : Time :=
    match ledger destination with
    | some t => t
    | none => 0
  let elapsed : Duration := Time.Sub now lastFired
  if elapsed < interval then (false, ledger)
  else (true, fun a => if a = destination then some now else ledger a)

/-- A hexadecimal digit, in either case. -/
def IsHexDigit (c : Byte) : Prop :=
  (48 ≤ c ∧ c ≤ 57) ∨ (97 ≤ c ∧ c ≤ 102) ∨ (65 ≤ c ∧ c ≤ 70)

instance (c : Byte) : Decidable (IsHexDigit c) := by
  unfold IsHexDigit; infer_instance

/-- Lower case of an ASCII letter. -/
def asciiLower (c : Byte) : Byte := if 65 ≤ c ∧ c ≤ 90 then c + 32 else c

/-- The number a hexadecimal digit stands for, whatever its case. -/
def hexDigitValue (c : Byte) : Nat :=
  if asciiLower c ≤ 57 then asciiLower c - 48 else asciiLower c - 97 + 10

/-- The bytes a string of hexadecimal digits denotes: one byte per pair of digits, the
first digit of a pair the high half. -/
def hexValue : List Byte → List Byte
  | hi :: lo :: rest => (16 * hexDigitValue hi + hexDigitValue lo) :: hexValue rest
  | _ => []

/-- Valid hexadecimal: an even number of characters, each a hexadecimal digit. -/
def ValidHex (h : List Byte) : Prop := h.length % 2 = 0 ∧ ∀ c ∈ h, IsHexDigit c

instance (h : List Byte) : Decidable (ValidHex h) := by
  unfold ValidHex; infer_instance

/-- Removal of at most one leading `0x` or `0X`. -/
def dropMarker : List Byte → List Byte
  | 48 :: 120 :: rest => rest
  | 48 :: 88 :: rest => rest
  | h => h

/-- Some buffer of the batch is a handshake initiation. -/
def Matches (bufs : List (List Byte)) : Prop :=
  ∃ buf ∈ bufs, handshakeInitiation buf = .ok true

/-- A wrapped transport that only records the `Send` calls it receives, oldest first, and
reports no error. -/
def recorder : ConnBind (List (List (List Byte) × Endpoint)) where
  Open := fun port s => (([], port, none), s)
  Close := fun s => (none, s)
  SetMark := fun _ s => (none, s)
  ParseEndpoint := fun _ s => ((none, none), s)
  BatchSize := fun s => (1, s)
  Send := fun bufs ep s => (none, s ++ [(bufs, ep)])

/-- One call of `Send`, with the clock reading at the call. -/
structure Call where
  now : Time
  ep : Endpoint
  bufs : List (List Byte)

/-- What a sequence of `Send` calls leaves behind: the errors returned, in order, and the
probes launched, each with the clock reading of the call that launched it. -/
structure RunResult (σ : Type) where
  bind : Bind σ
  inner : σ
  errs : List Error
  launched : List (Time × Probe)

/-- A sequence of `Send` calls, one after the other. -/
def Bind.sendAll {σ : Type} (b : Bind σ) (s : σ) : List Call → Except Panic (RunResult σ)
  | [] => .ok { bind := b, inner := s, errs := [], launched := [] }
  | c :: cs => do
    let r ← b.Send c.bufs c.ep c.now s
    let rest ← r.bind.sendAll r.inner cs
    pure { rest with
      errs := r.err :: rest.errs
      launched := r.probes.map (fun p => (c.now, p)) ++ rest.launched }

/-! ## The delegating methods and sequences of operations -/

/-- What a call of a delegating method leaves behind: the values returned, the decorator
and the state of the wrapped transport. -/
structure CallResult (σ : Type) (α : Type) where
  value : α
  bind : Bind σ
  inner : σ

/-- The method `Open`. -/
def Bind.Open {σ : Type} (b : Bind σ) (port : Nat) (s : σ) :
    CallResult σ (List ReceiveFunc × Nat × Error) :=
  let out := b.inner.Open port s
  { value := out.1, bind := b, inner := out.2 }

/-- The method `Close`. -/
def Bind.Close {σ : Type} (b : Bind σ) (s : σ) : CallResult σ Error :=
  let out := b.inner.Close s
  { value := out.1, bind := b, inner := out.2 }

/-- The method `SetMark`. -/
def Bind.SetMark {σ : Type} (b : Bind σ) (m : Nat) (s : σ) : CallResult σ Error :=
  let out := b.inner.SetMark m s
  { value := out.1, bind := b, inner := out.2 }

/-- The method `ParseEndpoint`. -/
def Bind.ParseEndpoint {σ : Type} (b : Bind σ) (str : String) (s : σ) :
    CallResult σ (Option Endpoint × Error) :=
  let out := b.inner.ParseEndpoint str s
  { value := out.1, bind := b, inner := out.2 }

/-- The method `BatchSize`. -/
def Bind.BatchSize {σ : Type} (b : Bind σ) (s : σ) : CallResult σ Int :=
  let out := b.inner.BatchSize s
  { value := out.1, bind := b, inner := out.2 }

/-- One call of a method of the decorator. -/
inductive Op where
  | Send (bufs : List (List Byte)) (ep : Endpoint) (now : Time)
  | Open (port : Nat)
  | Close
  | SetMark (m : Nat)
  | ParseEndpoint (str : String)
  | BatchSize

/-- The decorator and the wrapped transport after one call. -/
def Bind.perform {σ : Type} (b : Bind σ) (s : σ) : Op → Except Panic (Bind σ × σ)
  | .Send bufs ep now => do
    let r ← b.Send bufs ep now s
    pure (r.bind, r.inner)
  | .Open port => pure ((b.Open port s).bind, (b.Open port s).inner)
  | .Close => pure ((b.Close s).bind, (b.Close s).inner)
  | .SetMark m => pure ((b.SetMark m s).bind, (b.SetMark m s).inner)
  | .ParseEndpoint str => pure ((b.ParseEndpoint str s).bind, (b.ParseEndpoint str s).inner)
  | .BatchSize => pure ((b.BatchSize s).bind, (b.BatchSize s).inner)

/-- The decorator and the wrapped transport after a sequence of calls. -/
def Bind.performAll {σ : Type} (b : Bind σ) (s : σ) : List Op → Except Panic (Bind σ × σ)
  | [] => .ok (b, s)
  | op :: ops => do
    let r ← b.perform s op
    r.1.performAll r.2 ops

/-- The scan of the batch without the `break`: every buffer is classified and the results
are or-ed. -/
def seenInitFull : List (List Byte) → Except Panic Bool
  | [] => .ok false
  | buf :: rest => do
    let m ← handshakeInitiation buf
    let r ← seenInitFull rest
    pure (m || r)

instance (bufs : List (List Byte)) : Decidable (Matches bufs) := by
  unfold Matches; infer_instance

/-- The clock reading of the last probe launched for `d` in a run, if there is one. -/
def lastLaunch (d : Addr) (launched : List (Time × Probe)) : Option Time :=
  ((launched.filter fun e => decide (e.2.ip = d)).getLast?).map fun e => e.1

/-! ## Goroutines in the rate-limit section

Several goroutines call `Send` at once.  Each has found an initiation in its batch and has
read the clock (line 75); from there it runs the statements of lines 76 to 83 one at a
time, interleaved with the others in any order. -/

/-- A goroutine at line 76 of `maybePreflight`: the destination address of its endpoint
and the clock reading it took at line 75. -/
structure Goroutine where
  dst : Addr
  now : Time
deriving DecidableEq, Repr

/-- The statement a goroutine executes next. -/
inductive Pc where
  /-- Line 76, `b.mu.Lock()`. -/
  | lock
  /-- Line 77, `last := b.lastSent[dst]`. -/
  | read
  /-- Line 78, `if now.Sub(last) < b.interval`. -/
  | check (last : Time)
  /-- Line 79, `b.mu.Unlock()`, followed by the `return` of line 80. -/
  | unlockReturn
  /-- Line 82, `b.lastSent[dst] = now`. -/
  | store
  /-- Line 83, `b.mu.Unlock()`. -/
  | unlock
  /-- The goroutine has left `maybePreflight` at line 80, without a probe. -/
  | returned
  /-- The goroutine is past line 83 and launches its probe. -/
  | launch
deriving DecidableEq, Repr

/-- The mutex `mu`, the map `lastSent` and the statement each of `n` goroutines is at. -/
structure Race (n : Nat) where
  locked : Bool
  lastSent : Ledger
  pc : Fin n → Pc

/-- All goroutines are at line 76, the mutex is free. -/
def Race.init {n : Nat} (ledger : Ledger) : Race n :=
  { locked := false, lastSent := ledger, pc := fun _ => .lock }

/-- Goroutine `i` executes its next statement.  A goroutine at `Lock()` while the mutex
is held waits, and a goroutine that has left the section does nothing more. -/
def Race.step {n : Nat} (interval : Duration) (gs : Fin n → Goroutine) (st : Race n)
    (i : Fin n) : Race n :=
  match st.pc i with
  | .lock =>
    if st.locked then st
    else { st with locked := true, pc := Function.update st.pc i .read }
  | .read =>
    { st with pc := Function.update st.pc i (.check (st.lastSent.lookup (gs i).dst)) }
  | .check last =>
    if Time.Sub (gs i).now last < interval then
      { st with pc := Function.update st.pc i .unlockReturn }
    else { st with pc := Function.update st.pc i .store }
  | .unlockReturn => { st with locked := false, pc := Function.update st.pc i .returned }
  | .store =>
    { st with
      lastSent := st.lastSent.store (gs i).dst (gs i).now
      pc := Function.update st.pc i .unlock }
  | .unlock => { st with locked := false, pc := Function.update st.pc i .launch }
  | .returned => st
  | .launch => st

/-- The goroutines take steps in the order of the schedule. -/
def Race.run {n : Nat} (interval : Duration) (gs : Fin n → Goroutine) (st : Race n)
    (schedule : List (Fin n)) : Race n :=
  schedule.foldl (Race.step interval gs) st

/-- The goroutine holds the mutex. -/
def Pc.inCrit : Pc → Bool
  | .read | .check _ | .unlockReturn | .store | .unlock => true
  | _ => false

/-- The goroutine has passed the check of line 78 with the probe admitted. -/
def Pc.decided : Pc → Bool
  | .store | .unlock | .launch => true
  | _ => false

/-- The goroutine has executed the assignment of line 82. -/
def Pc.stored : Pc → Bool
  | .unlock | .launch => true
  | _ => false

/-- The goroutine has passed the check of line 78 with the probe refused. -/
def Pc.rejected : Pc → Bool
  | .unlockReturn | .returned => true
  | _ => false

/-- The goroutine has left the rate-limit section. -/
def Pc.finished : Pc → Bool
  | .returned | .launch => true
  | _ => false

/-- Mutual exclusion, in every state the goroutines can reach: at most one goroutine holds
the mutex, the mutex is then locked, and the timestamp a goroutine has read at line 77 is
still the ledger entry when it compares at line 78. -/
structure MutexInv {n : Nat} (gs : Fin n → Goroutine) (st : Race n) : Prop where
  mutex : ∀ i j, (st.pc i).inCrit = true → (st.pc j).inCrit = true → i = j
  held : ∀ i, (st.pc i).inCrit = true → st.locked = true
  fresh : ∀ i last, st.pc i = .check last → last = st.lastSent.lookup (gs i).dst

/-- What holds of the goroutines of destination `d` in every state they can reach from
`Race.init ledger`, when their clock readings are within one interval of each other. -/
structure LedgerInv {n : Nat} (interval : Duration) (gs : Fin n → Goroutine)
    (ledger : Ledger) (d : Addr) (st : Race n) : Prop where
  one : ∀ i j, (gs i).dst = d → (gs j).dst = d → (st.pc i).decided = true →
    (st.pc j).decided = true → i = j
  entry : ∀ i, (gs i).dst = d → (st.pc i).stored = true → st.lastSent d = some (gs i).now
  untouched : (∀ i, (gs i).dst = d → (st.pc i).decided = false) → st.lastSent d = ledger d
  refused : ∀ i, (gs i).dst = d → (st.pc i).rejected = true →
    (∃ k, (gs k).dst = d ∧ (st.pc k).decided = true) ∨
      Time.Sub (gs i).now (ledger.lookup d) < interval
  eligible : ∀ i, (gs i).dst = d → (st.pc i).decided = true →
    ¬ Time.Sub (gs i).now (ledger.lookup d) < interval

/-! ## The classifier: lemmas -/

theorem handshakeInitiation_eq (buf : List Byte) :
    handshakeInitiation buf = .ok (decide (IsInitiation buf)) := by
  unfold handshakeInitiation handshakeInitiationOn IsInitiation
  by_cases hlen : buf.length < device.MessageInitiationSize
  · have : ¬ 148 ≤ buf.length := by
      simp only [device.MessageInitiationSize] at hlen; omega
    simp [hlen, this]
  · simp only [device.MessageInitiationSize] at hlen
    match buf, hlen with
    | [], h => simp at h
    | [_], h => simp at h
    | [_, _], h => simp at h
    | [_, _, _], h => simp at h
    | b0 :: b1 :: b2 :: b3 :: rest, h =>
      have h148 : 148 ≤ (b0 :: b1 :: b2 :: b3 :: rest).length := by omega
      simp only [device.MessageInitiationSize, device.MessageInitiationType]
      rw [if_neg (by omega)]
      simp only [index, List.get?, bind, Except.bind, pure, Except.pure]
      by_cases h0 : b0 = 1 <;> by_cases h1 : b1 = 0 <;> by_cases h2 : b2 = 0 <;>
        by_cases h3 : b3 = 0 <;> simp [h0, h1, h2, h3, h148]

theorem seenInit_eq (bufs : List (List Byte)) :
    seenInit bufs = .ok (bufs.any fun buf => decide (IsInitiation buf)) := by
  induction bufs with
  | nil => rfl
  | cons buf rest ih =>
    simp only [seenInit, handshakeInitiation_eq, bind, Except.bind, pure, Except.pure, ih,
      List.any_cons]
    by_cases h : IsInitiation buf <;> simp [h]

/-- C1: `handshakeInitiation(buf)` returns true exactly when `len(buf) >= 148`, `buf[0] == 1`
and `buf[1]`, `buf[2]`, `buf[3]` are all zero; a buffer whose byte 1, 2 or 3 is non-zero is
rejected whatever its length and tag. -/
theorem handshakeInitiation_iff (buf : List Byte) :
    (handshakeInitiation buf = .ok true ↔
      148 ≤ buf.length ∧ buf.get? 0 = some 1 ∧ buf.get? 1 = some 0 ∧
        buf.get? 2 = some 0 ∧ buf.get? 3 = some 0) ∧
    (handshakeInitiation buf = .ok true ∨ handshakeInitiation buf = .ok false) ∧
    (∀ i v, (i = 1 ∨ i = 2 ∨ i = 3) → buf.get? i = some v → v ≠ 0 →
      handshakeInitiation buf = .ok false) := by
  rw [handshakeInitiation_eq]
  refine ⟨?_, ?_, ?_⟩
  · simp [IsInitiation]
  · by_cases h : IsInitiation buf <;> simp [h]
  · intro i v hi hv hne
    have : ¬ IsInitiation buf := by
      rintro ⟨_, _, h1, h2, h3⟩
      rcases hi with rfl | rfl | rfl
      · rw [h1] at hv; exact hne (Option.some.inj hv).symm
      · rw [h2] at hv; exact hne (Option.some.inj hv).symm
      · rw [h3] at hv; exact hne (Option.some.inj hv).symm
    simp [this]

/-- Witness of C1 on a 148-byte buffer whose byte 2 is non-zero. -/
theorem handshakeInitiation_iff_witness :
    handshakeInitiation ([1, 0, 9, 0] ++ List.replicate 144 0) = .ok false :=
  (handshakeInitiation_iff ([1, 0, 9, 0] ++ List.replicate 144 0)).2.2 2 9
    (Or.inr (Or.inl rfl)) rfl (by decide)

/-- C2: every buffer shorter than 148 bytes is rejected, whatever its bytes, and no index
of it is read: the result is the same under every way of answering an index read, also
one that always panics.  On every buffer the classifier returns, without a panic. -/
theorem handshakeInitiation_short (buf : List Byte) :
    (∃ r, handshakeInitiation buf = .ok r) ∧
    (buf.length < 148 →
      handshakeInitiation buf = .ok false ∧
      ∀ read : Nat → Except Panic Byte, handshakeInitiationOn buf.length read = .ok false) := by
  refine ⟨⟨_, handshakeInitiation_eq buf⟩, fun h => ⟨?_, fun read => ?_⟩⟩
  · have : ¬ IsInitiation buf := fun hi => absurd hi.1 (by omega)
    simp [handshakeInitiation_eq, this]
  · simp [handshakeInitiationOn, device.MessageInitiationSize, h]

/-- Witness of C2 on the three-byte buffer `[1, 0, 0]`. -/
theorem handshakeInitiation_short_witness :
    handshakeInitiation [1, 0, 0] = .ok false ∧
    ∀ read : Nat → Except Panic Byte, handshakeInitiationOn 3 read = .ok false :=
  (handshakeInitiation_short [1, 0, 0]).2 (by decide)

/-! ## The decorator: lemmas -/

theorem seenInit_true_iff (bufs : List (List Byte)) :
    seenInit bufs = .ok true ↔ Matches bufs := by
  simp [seenInit_eq, Matches, handshakeInitiation_eq]

theorem seenInit_false_iff (bufs : List (List Byte)) :
    seenInit bufs = .ok false ↔ ¬ Matches bufs := by
  simp [seenInit_eq, Matches, handshakeInitiation_eq]

theorem maybePreflight_of_not_matches {σ : Type} (b : Bind σ) (ep : Endpoint)
    (bufs : List (List Byte)) (now : Time) (h : ¬ Matches bufs) :
    b.maybePreflight ep bufs now = .ok (b, []) := by
  simp [Bind.maybePreflight, (seenInit_false_iff bufs).2 h, bind, Except.bind, pure,
    Except.pure]

theorem maybePreflight_of_matches {σ : Type} (b : Bind σ) (ep : Endpoint)
    (bufs : List (List Byte)) (now : Time) (h : Matches bufs) :
    b.maybePreflight ep bufs now =
      .ok (if Time.Sub now (b.lastSent.lookup ep.DstIP) < b.interval then (b, [])
        else ({ b with lastSent := b.lastSent.store ep.DstIP now },
          [{ ip := ep.DstIP, port := b.port443, payload := b.payload }])) := by
  simp only [Bind.maybePreflight, (seenInit_true_iff bufs).2 h, bind, Except.bind, pure,
    Except.pure, Bool.not_true, Bool.false_eq_true, if_false]
  by_cases hlt : Time.Sub now (b.lastSent.lookup ep.DstIP) < b.interval <;> simp [hlt]

theorem maybePreflight_total {σ : Type} (b : Bind σ) (ep : Endpoint)
    (bufs : List (List Byte)) (now : Time) :
    ∃ r, b.maybePreflight ep bufs now = .ok r ∧ r.1.inner = b.inner ∧
      r.1.port443 = b.port443 ∧ r.1.payload = b.payload ∧ r.1.interval = b.interval := by
  by_cases h : Matches bufs
  · rw [maybePreflight_of_matches b ep bufs now h]
    refine ⟨_, rfl, ?_⟩
    split <;> simp
  · exact ⟨_, maybePreflight_of_not_matches b ep bufs now h, rfl, rfl, rfl, rfl⟩

theorem Send_eq {σ : Type} (b : Bind σ) (bufs : List (List Byte)) (ep : Endpoint)
    (now : Time) (s : σ) (r : Bind σ × List Probe)
    (h : b.maybePreflight ep bufs now = .ok r) :
    b.Send bufs ep now s =
      .ok { err := (r.1.inner.Send bufs ep s).1, bind := r.1,
            inner := (r.1.inner.Send bufs ep s).2, probes := r.2 } := by
  simp [Bind.Send, h, bind, Except.bind, pure, Except.pure]

/-- C3: `Send` hands the batch and the endpoint it was given to the wrapped transport's
`Send`, once, and returns the error of that call, whether or not a buffer matched and
whether or not a probe was admitted. -/
theorem Send_forwards {σ : Type} (b : Bind σ) (bufs : List (List Byte)) (ep : Endpoint)
    (now : Time) (s : σ) :
    (∃ r, b.Send bufs ep now s = .ok r ∧ r.err = (b.inner.Send bufs ep s).1 ∧
      r.inner = (b.inner.Send bufs ep s).2 ∧ r.bind.inner = b.inner) ∧
    (∀ (port : Int) (payload : List Byte) (ledger : Ledger) (interval : Duration)
        (log : List (List (List Byte) × Endpoint)),
      ∃ r, (Bind.mk recorder port payload ledger interval).Send bufs ep now log = .ok r ∧
        r.err = none ∧ r.inner = log ++ [(bufs, ep)]) := by
  constructor
  · obtain ⟨r, hr, hin, -⟩ := maybePreflight_total b ep bufs now
    refine ⟨_, Send_eq b bufs ep now s r hr, ?_, ?_, hin⟩ <;> simp [hin]
  · intro port payload ledger interval log
    obtain ⟨r, hr, hin, -⟩ :=
      maybePreflight_total (Bind.mk recorder port payload ledger interval) ep bufs now
    refine ⟨_, Send_eq _ bufs ep now log r hr, ?_, ?_⟩ <;> simp [hin, recorder]

/-- C4: when no buffer of the batch is a handshake initiation (the empty batch included),
`Send` launches no probe, leaves the decorator and so its ledger as they were, and returns
what the wrapped transport's `Send` returns for the same arguments. -/
theorem Send_no_match {σ : Type} (b : Bind σ) (bufs : List (List Byte)) (ep : Endpoint)
    (now : Time) (s : σ) (h : ∀ buf ∈ bufs, handshakeInitiation buf ≠ .ok true) :
    ∃ r, b.Send bufs ep now s = .ok r ∧ r.probes = [] ∧ r.bind.lastSent = b.lastSent ∧
      r.bind = b ∧ r.err = (b.inner.Send bufs ep s).1 ∧
      r.inner = (b.inner.Send bufs ep s).2 := by
  have hm : ¬ Matches bufs := fun ⟨buf, hb, ht⟩ => h buf hb ht
  exact ⟨_, Send_eq b bufs ep now s _ (maybePreflight_of_not_matches b ep bufs now hm),
    rfl, rfl, rfl, rfl, rfl⟩

/-- Witness of C4 on the empty batch sent through the recording transport. -/
theorem Send_no_match_witness :
    ∃ r, (Bind.mk recorder 443 [1] (fun _ => none) Second).Send []
        ⟨⟨1, ""⟩, "peer"⟩ unixEpoch [] = .ok r ∧ r.probes = [] ∧
      r.bind.lastSent = (fun _ => none) ∧
      r.bind = Bind.mk recorder 443 [1] (fun _ => none) Second ∧
      r.err = (recorder.Send [] ⟨⟨1, ""⟩, "peer"⟩ []).1 ∧
      r.inner = (recorder.Send [] ⟨⟨1, ""⟩, "peer"⟩ []).2 :=
  Send_no_match (Bind.mk recorder 443 [1] (fun _ => none) Second) []
    ⟨⟨1, ""⟩, "peer"⟩ unixEpoch [] (by simp)

/-! ## The rate limiter -/

theorem Time.Sub_le_of_le (t u : Time) (h : u ≤ t) : Time.Sub t u ≤ t - u := by
  unfold Time.Sub maxDuration minDuration
  simp only [Duration, Time] at *
  split
  · omega
  · split <;> omega

theorem Time.Sub_lt_iff (t u : Time) (i : Duration) (h : u ≤ t) (hi : i ≤ maxDuration) :
    Time.Sub t u < i ↔ t - u < i := by
  unfold Time.Sub
  unfold maxDuration minDuration at *
  simp only [Duration, Time] at *
  split
  · omega
  · split <;> omega

theorem Time.Sub_zero_of_clock (t : Time) (h : IsClockReading t) :
    Time.Sub t Time.zero = maxDuration := by
  unfold IsClockReading unixEpoch at h
  unfold Time.Sub Time.zero maxDuration
  simp only [Duration, Time] at *
  rw [if_pos (by omega)]

set_option maxRecDepth 8000 in
theorem initiation_example :
    handshakeInitiation ([1, 0, 0, 0] ++ List.replicate 144 0) = .ok true := by
  decide

/-- C5: for a batch with a handshake initiation, `maybePreflight` does what the reference
`admitRef` does on the ledger: with `last` the entry of the destination (the zero time when
absent), nothing is launched and the ledger is untouched when `now - last` is below the
interval, else one probe is launched and the ledger maps the destination to `now`;
an elapsed time equal to the interval is admitted. -/
theorem maybePreflight_rate_limit {σ : Type} (b : Bind σ) (ep : Endpoint)
    (bufs : List (List Byte)) (now : Time)
    (h : ∃ buf ∈ bufs, handshakeInitiation buf = .ok true) :
    b.maybePreflight ep bufs now =
      .ok ({ b with lastSent := (admitRef b.lastSent ep.DstIP now b.interval).2 },
        if (admitRef b.lastSent ep.DstIP now b.interval).1 then
          [{ ip := ep.DstIP, port := b.port443, payload := b.payload }]
        else []) ∧
    (Time.Sub now ((b.lastSent ep.DstIP).getD 0) < b.interval →
      b.maybePreflight ep bufs now = .ok (b, [])) ∧
    (¬ Time.Sub now ((b.lastSent ep.DstIP).getD 0) < b.interval →
      b.maybePreflight ep bufs now =
        .ok ({ b with lastSent := fun a => if a = ep.DstIP then some now else b.lastSent a },
          [{ ip := ep.DstIP, port := b.port443, payload := b.payload }])) ∧
    (Time.Sub now ((b.lastSent ep.DstIP).getD 0) = b.interval →
      b.maybePreflight ep bufs now =
        .ok ({ b with lastSent := fun a => if a = ep.DstIP then some now else b.lastSent a },
          [{ ip := ep.DstIP, port := b.port443, payload := b.payload }])) := by
  have hm : Matches bufs := h
  have key := maybePreflight_of_matches b ep bufs now hm
  have hl : b.lastSent.lookup ep.DstIP = (b.lastSent ep.DstIP).getD 0 := rfl
  rw [hl] at key
  have hstore : b.lastSent.store ep.DstIP now =
      fun a => if a = ep.DstIP then some now else b.lastSent a := rfl
  rw [hstore] at key
  have hadm : admitRef b.lastSent ep.DstIP now b.interval =
      if Time.Sub now ((b.lastSent ep.DstIP).getD 0) < b.interval then (false, b.lastSent)
      else (true, fun a => if a = ep.DstIP then some now else b.lastSent a) := by
    unfold admitRef
    cases b.lastSent ep.DstIP <;> rfl
  refine ⟨?_, ?_, ?_, ?_⟩
  · rw [key, hadm]
    by_cases hlt : Time.Sub now ((b.lastSent ep.DstIP).getD 0) < b.interval <;> simp [hlt]
  · intro hlt; rw [key, if_pos hlt]
  · intro hlt; rw [key, if_neg hlt]
  · intro heq
    have hlt : ¬ Time.Sub now ((b.lastSent ep.DstIP).getD 0) < b.interval := by
      rw [heq]; exact lt_irrefl _
    rw [key, if_neg hlt]

/-- Witness of C5: last probe at the Unix epoch, interval one second, a second matching
send exactly one second later is admitted. -/
theorem maybePreflight_rate_limit_witness :
    (Bind.mk recorder 443 [1] (fun _ => some unixEpoch) Second).maybePreflight
        ⟨⟨1, ""⟩, "peer"⟩ [[1, 0, 0, 0] ++ List.replicate 144 0] (unixEpoch + Second) =
      .ok ({ Bind.mk recorder 443 [1] (fun _ => some unixEpoch) Second with
              lastSent := fun a =>
                if a = ⟨1, ""⟩ then some (unixEpoch + Second) else some unixEpoch },
        [{ ip := ⟨1, ""⟩, port := 443, payload := [1] }]) :=
  (maybePreflight_rate_limit (Bind.mk recorder 443 [1] (fun _ => some unixEpoch) Second)
    ⟨⟨1, ""⟩, "peer"⟩ [[1, 0, 0, 0] ++ List.replicate 144 0] (unixEpoch + Second)
    ⟨_, List.mem_singleton.2 rfl, initiation_example⟩).2.2.2 (by decide)

/-! ## Sequences of sends -/

theorem Send_cases {σ : Type} (b : Bind σ) (bufs : List (List Byte)) (ep : Endpoint)
    (now : Time) (s : σ) :
    ∃ r, b.Send bufs ep now s = .ok r ∧ r.bind.interval = b.interval ∧
      r.err = (b.inner.Send bufs ep s).1 ∧ r.inner = (b.inner.Send bufs ep s).2 ∧
      ((r.bind = b ∧ r.probes = [] ∧
          (Matches bufs → Time.Sub now (b.lastSent.lookup ep.DstIP) < b.interval)) ∨
        (Matches bufs ∧ ¬ Time.Sub now (b.lastSent.lookup ep.DstIP) < b.interval ∧
          r.bind = { b with lastSent := b.lastSent.store ep.DstIP now } ∧
          r.probes = [{ ip := ep.DstIP, port := b.port443, payload := b.payload }])) := by
  by_cases hm : Matches bufs
  · by_cases hlt : Time.Sub now (b.lastSent.lookup ep.DstIP) < b.interval
    · have h := maybePreflight_of_matches b ep bufs now hm
      rw [if_pos hlt] at h
      exact ⟨_, Send_eq b bufs ep now s _ h, rfl, rfl, rfl, Or.inl ⟨rfl, rfl, fun _ => hlt⟩⟩
    · have h := maybePreflight_of_matches b ep bufs now hm
      rw [if_neg hlt] at h
      exact ⟨_, Send_eq b bufs ep now s _ h, rfl, rfl, rfl, Or.inr ⟨hm, hlt, rfl, rfl⟩⟩
  · exact ⟨_, Send_eq b bufs ep now s _ (maybePreflight_of_not_matches b ep bufs now hm),
      rfl, rfl, rfl, Or.inl ⟨rfl, rfl, fun h => absurd h hm⟩⟩

theorem sendAll_cons {σ : Type} (b : Bind σ) (s : σ) (c : Call) (cs : List Call)
    (r : SendResult σ) (rest : RunResult σ) (h : b.Send c.bufs c.ep c.now s = .ok r)
    (h2 : r.bind.sendAll r.inner cs = .ok rest) :
    b.sendAll s (c :: cs) =
      .ok { rest with
        errs := r.err :: rest.errs
        launched := r.probes.map (fun p => (c.now, p)) ++ rest.launched } := by
  simp [Bind.sendAll, h, h2, bind, Except.bind, pure, Except.pure]

theorem store_self (m : Ledger) (k : Addr) (t : Time) : m.store k t k = some t := by
  simp [Ledger.store]

theorem store_other (m : Ledger) (k a : Addr) (t : Time) (h : a ≠ k) :
    m.store k t a = m a := by
  simp [Ledger.store, h]

/-- After a probe for `d` at `t0`, every probe for `d` launched by later sends, made at
clock readings from `t0` on and in non-decreasing order, comes at least the interval after
`t0`. -/
theorem launched_after {σ : Type} (cs : List Call) :
    ∀ (b : Bind σ) (s : σ) (d : Addr) (t0 : Time), b.lastSent d = some t0 →
      (∀ c ∈ cs, t0 ≤ c.now) → cs.Pairwise (fun c1 c2 => c1.now ≤ c2.now) →
      ∃ r, b.sendAll s cs = .ok r ∧
        ∀ e ∈ r.launched, e.2.ip = d → t0 + b.interval ≤ e.1 := by
  induction cs with
  | nil =>
    intro b s d t0 _ _ _
    exact ⟨_, rfl, by simp⟩
  | cons c cs ih =>
    intro b s d t0 hd hge hp
    obtain ⟨r, hr, hiv, -, -, hcase⟩ := Send_cases b c.bufs c.ep c.now s
    have hc0 : t0 ≤ c.now := hge c (List.mem_cons_self _ _)
    have hp2 := (List.pairwise_cons.1 hp)
    rcases hcase with ⟨hb, hprobes, -⟩ | ⟨-, hnlt, hb, hprobes⟩
    · obtain ⟨rest, hrest, hall⟩ := ih r.bind r.inner d t0 (by rw [hb]; exact hd)
        (fun c2 h2 => hge c2 (List.mem_cons_of_mem _ h2)) hp2.2
      refine ⟨_, sendAll_cons b s c cs r rest hr hrest, ?_⟩
      intro e he hip
      simp only [hprobes, List.map_nil, List.nil_append] at he
      have := hall e he hip
      rw [hiv] at this
      exact this
    · by_cases hdd : d = c.ep.DstIP
      · have hl : r.bind.lastSent d = some c.now := by rw [hb, hdd]; exact store_self _ _ _
        obtain ⟨rest, hrest, hall⟩ := ih r.bind r.inner d c.now hl
          (fun c2 h2 => hp2.1 c2 h2) hp2.2
        refine ⟨_, sendAll_cons b s c cs r rest hr hrest, ?_⟩
        have hlook : b.lastSent.lookup c.ep.DstIP = t0 := by
          rw [← hdd]; simp [Ledger.lookup, hd]
        rw [hlook] at hnlt
        have hsub := Time.Sub_le_of_le c.now t0 hc0
        have hfirst : t0 + b.interval ≤ c.now := by
          simp only [Duration, Time] at *
          omega
        intro e he hip
        simp only [hprobes, List.map_cons, List.map_nil, List.singleton_append,
          List.mem_cons] at he
        rcases he with rfl | he
        · exact hfirst
        · have := hall e he hip
          rw [hiv] at this
          simp only [Duration, Time] at *
          omega
      · have hl : r.bind.lastSent d = some t0 := by
          rw [hb]; show b.lastSent.store c.ep.DstIP c.now d = some t0
          rw [store_other _ _ _ _ hdd]; exact hd
        obtain ⟨rest, hrest, hall⟩ := ih r.bind r.inner d t0 hl
          (fun c2 h2 => hge c2 (List.mem_cons_of_mem _ h2)) hp2.2
        refine ⟨_, sendAll_cons b s c cs r rest hr hrest, ?_⟩
        intro e he hip
        simp only [hprobes, List.map_cons, List.map_nil, List.singleton_append,
          List.mem_cons] at he
        rcases he with rfl | he
        · exact absurd hip.symm hdd
        · have := hall e he hip
          rw [hiv] at this
          exact this

/-- C6: over any sequence of `Send` calls made at non-decreasing clock readings, two
probes launched for the same destination address are at least the configured interval
apart (for every interval, a positive one in particular), so no window shorter than a
positive interval holds two of them. -/
theorem probes_spaced {σ : Type} (cs : List Call) :
    ∀ (b : Bind σ) (s : σ), cs.Pairwise (fun c1 c2 => c1.now ≤ c2.now) →
      ∃ r, b.sendAll s cs = .ok r ∧
        r.launched.Pairwise (fun e1 e2 => e1.2.ip = e2.2.ip → e1.1 + b.interval ≤ e2.1) := by
  induction cs with
  | nil =>
    intro b s _
    exact ⟨_, rfl, List.Pairwise.nil⟩
  | cons c cs ih =>
    intro b s hp
    obtain ⟨r, hr, hiv, -, -, hcase⟩ := Send_cases b c.bufs c.ep c.now s
    have hp2 := (List.pairwise_cons.1 hp)
    obtain ⟨rest, hrest, hpair⟩ := ih r.bind r.inner hp2.2
    rw [hiv] at hpair
    refine ⟨_, sendAll_cons b s c cs r rest hr hrest, ?_⟩
    rcases hcase with ⟨-, hprobes, -⟩ | ⟨-, -, hb, hprobes⟩
    · simpa only [hprobes, List.map_nil, List.nil_append] using hpair
    · have hl : r.bind.lastSent c.ep.DstIP = some c.now := by
        rw [hb]; exact store_self _ _ _
      obtain ⟨rest2, hrest2, hall⟩ := launched_after cs r.bind r.inner c.ep.DstIP c.now hl
        (fun c2 h2 => hp2.1 c2 h2) hp2.2
      have hsame : rest2 = rest := Except.ok.inj (hrest2.symm.trans hrest)
      subst hsame
      rw [hiv] at hall
      simp only [hprobes, List.map_cons, List.map_nil, List.singleton_append]
      exact List.pairwise_cons.2 ⟨fun e he hip => hall e he hip.symm, hpair⟩

set_option maxRecDepth 100000 in
/-- The probes launched by three matching sends at 0 ms, 500 ms and 1 s. -/
theorem launched_example :
    (match (Bind.mk recorder 443 [1] (fun _ => none) Second).sendAll []
        [⟨unixEpoch, ⟨⟨1, ""⟩, "peer"⟩, [[1, 0, 0, 0] ++ List.replicate 144 0]⟩,
         ⟨unixEpoch + 500 * Millisecond, ⟨⟨1, ""⟩, "peer"⟩,
           [[1, 0, 0, 0] ++ List.replicate 144 0]⟩,
         ⟨unixEpoch + Second, ⟨⟨1, ""⟩, "peer"⟩, [[1, 0, 0, 0] ++ List.replicate 144 0]⟩] with
      | .ok r => r.launched
      | .error _ => []) =
    [(unixEpoch, ⟨⟨1, ""⟩, 443, [1]⟩), (unixEpoch + Second, ⟨⟨1, ""⟩, 443, [1]⟩)] := by
  decide

/-- Witness of C6: three matching sends for one destination at 0 ms, 500 ms and 1 s, with
an interval of one second. -/
theorem probes_spaced_witness :
    ∃ r, (Bind.mk recorder 443 [1] (fun _ => none) Second).sendAll []
        [⟨unixEpoch, ⟨⟨1, ""⟩, "peer"⟩, [[1, 0, 0, 0] ++ List.replicate 144 0]⟩,
         ⟨unixEpoch + 500 * Millisecond, ⟨⟨1, ""⟩, "peer"⟩,
           [[1, 0, 0, 0] ++ List.replicate 144 0]⟩,
         ⟨unixEpoch + Second, ⟨⟨1, ""⟩, "peer"⟩, [[1, 0, 0, 0] ++ List.replicate 144 0]⟩]
        = .ok r ∧
      r.launched.Pairwise (fun e1 e2 => e1.2.ip = e2.2.ip → e1.1 + Second ≤ e2.1) :=
  probes_spaced _ (Bind.mk recorder 443 [1] (fun _ => none) Second) [] (by decide)

/-- Sends for other destinations leave the ledger entry of `d` and the configuration as
they were. -/
theorem sendAll_frame {σ : Type} (cs : List Call) :
    ∀ (b : Bind σ) (s : σ) (d : Addr), (∀ c ∈ cs, c.ep.DstIP ≠ d) →
      ∃ r, b.sendAll s cs = .ok r ∧ r.bind.lastSent d = b.lastSent d ∧
        r.bind.interval = b.interval ∧ r.bind.port443 = b.port443 ∧
        r.bind.payload = b.payload ∧ r.bind.inner = b.inner := by
  induction cs with
  | nil =>
    intro b s d _
    exact ⟨_, rfl, rfl, rfl, rfl, rfl, rfl⟩
  | cons c cs ih =>
    intro b s d hne
    obtain ⟨r, hr, -, -, -, hcase⟩ := Send_cases b c.bufs c.ep c.now s
    have hc : c.ep.DstIP ≠ d := hne c (List.mem_cons_self _ _)
    obtain ⟨rest, hrest, h1, h2, h3, h4, h5⟩ := ih r.bind r.inner d
      (fun c2 h2 => hne c2 (List.mem_cons_of_mem _ h2))
    refine ⟨_, sendAll_cons b s c cs r rest hr hrest, ?_⟩
    rcases hcase with ⟨hb, -, -⟩ | ⟨-, -, hb, -⟩
    · rw [hb] at h1 h2 h3 h4 h5
      exact ⟨h1, h2, h3, h4, h5⟩
    · rw [hb] at h1 h2 h3 h4 h5
      refine ⟨?_, h2, h3, h4, h5⟩
      rw [h1]
      exact store_other _ _ _ _ (Ne.symm hc)

/-- C7: for a destination without a ledger entry, two matching sends at clock readings
`t1 <= t2` (readings of `time.Now()`, the interval a 64-bit duration), with only sends
for other destinations in between: the first launches a probe; the second launches none
when `t2 - t1` is below the interval and launches one when `t2 - t1` is at least the
interval. -/
theorem two_sends {σ : Type} (b : Bind σ) (s : σ) (ep1 ep2 : Endpoint)
    (bufs1 bufs2 : List (List Byte)) (t1 t2 : Time) (mid : List Call)
    (hdst : ep2.DstIP = ep1.DstIP) (hnone : b.lastSent ep1.DstIP = none)
    (hiv : Duration.InRange b.interval) (hclock : IsClockReading t1) (hle : t1 ≤ t2)
    (hmid : ∀ c ∈ mid, c.ep.DstIP ≠ ep1.DstIP)
    (hm1 : ∃ buf ∈ bufs1, handshakeInitiation buf = .ok true)
    (hm2 : ∃ buf ∈ bufs2, handshakeInitiation buf = .ok true) :
    ∃ r1 rm r2, b.Send bufs1 ep1 t1 s = .ok r1 ∧
      r1.bind.sendAll r1.inner mid = .ok rm ∧
      rm.bind.Send bufs2 ep2 t2 rm.inner = .ok r2 ∧
      r1.probes = [{ ip := ep1.DstIP, port := b.port443, payload := b.payload }] ∧
      (t2 - t1 < b.interval → r2.probes = []) ∧
      (b.interval ≤ t2 - t1 →
        r2.probes = [{ ip := ep1.DstIP, port := b.port443, payload := b.payload }]) := by
  obtain ⟨r1, hr1, -, -, -, hcase1⟩ := Send_cases b bufs1 ep1 t1 s
  have hlook1 : b.lastSent.lookup ep1.DstIP = Time.zero := by
    simp [Ledger.lookup, hnone]
  have hadm1 : ¬ Time.Sub t1 (b.lastSent.lookup ep1.DstIP) < b.interval := by
    rw [hlook1, Time.Sub_zero_of_clock t1 hclock]
    exact not_lt.2 hiv.2
  rcases hcase1 with ⟨-, -, hlt⟩ | ⟨-, -, hb1, hp1⟩
  · exact absurd (hlt hm1) hadm1
  obtain ⟨rm, hrm, hl, hi, hport, hpay, -⟩ := sendAll_frame mid r1.bind r1.inner ep1.DstIP hmid
  obtain ⟨r2, hr2, -, -, -, hcase2⟩ := Send_cases rm.bind bufs2 ep2 t2 rm.inner
  have hlast : rm.bind.lastSent.lookup ep2.DstIP = t1 := by
    have : rm.bind.lastSent ep1.DstIP = some t1 := by
      rw [hl, hb1]; exact store_self _ _ _
    simp [Ledger.lookup, hdst, this]
  have hivm : rm.bind.interval = b.interval := by rw [hi, hb1]
  have hportm : rm.bind.port443 = b.port443 := by rw [hport, hb1]
  have hpaym : rm.bind.payload = b.payload := by rw [hpay, hb1]
  rw [hlast, hivm, Time.Sub_lt_iff t2 t1 b.interval hle hiv.2] at hcase2
  refine ⟨r1, rm, r2, hr1, hrm, hr2, hp1, ?_, ?_⟩
  · intro hlt
    rcases hcase2 with ⟨-, hp, -⟩ | ⟨-, hn, -, -⟩
    · exact hp
    · exact absurd hlt hn
  · intro hge
    rcases hcase2 with ⟨-, -, hlt⟩ | ⟨-, -, -, hp⟩
    · exact absurd (hlt hm2) (not_lt.2 hge)
    · rw [hp, hdst, hportm, hpaym]

/-- Witness of C7: no entry, interval one second, sends 500 ms apart with a send for
another destination in between. -/
theorem two_sends_witness :
    ∃ r1 rm r2,
      (Bind.mk recorder 443 [1] (fun _ => none) Second).Send
        [[1, 0, 0, 0] ++ List.replicate 144 0] ⟨⟨1, ""⟩, "peer"⟩ unixEpoch [] = .ok r1 ∧
      r1.bind.sendAll r1.inner
        [⟨unixEpoch, ⟨⟨2, ""⟩, "other"⟩, [[1, 0, 0, 0] ++ List.replicate 144 0]⟩] = .ok rm ∧
      rm.bind.Send [[1, 0, 0, 0] ++ List.replicate 144 0] ⟨⟨1, ""⟩, "peer"⟩
        (unixEpoch + 500 * Millisecond) rm.inner = .ok r2 ∧
      r1.probes = [{ ip := ⟨1, ""⟩, port := 443, payload := [1] }] ∧
      (unixEpoch + 500 * Millisecond - unixEpoch < Second → r2.probes = []) ∧
      (Second ≤ unixEpoch + 500 * Millisecond - unixEpoch →
        r2.probes = [{ ip := ⟨1, ""⟩, port := 443, payload := [1] }]) :=
  two_sends (Bind.mk recorder 443 [1] (fun _ => none) Second) [] ⟨⟨1, ""⟩, "peer"⟩
    ⟨⟨1, ""⟩, "peer"⟩ [[1, 0, 0, 0] ++ List.replicate 144 0]
    [[1, 0, 0, 0] ++ List.replicate 144 0] unixEpoch (unixEpoch + 500 * Millisecond)
    [⟨unixEpoch, ⟨⟨2, ""⟩, "other"⟩, [[1, 0, 0, 0] ++ List.replicate 144 0]⟩]
    rfl rfl (by decide) (by decide) (by decide) (by decide)
    ⟨_, List.mem_singleton.2 rfl, initiation_example⟩
    ⟨_, List.mem_singleton.2 rfl, initiation_example⟩

theorem Time.Sub_lt_of_lt (t u : Time) (i : Duration) (h : t - u < i)
    (hi : minDuration < i) : Time.Sub t u < i := by
  unfold Time.Sub
  unfold maxDuration minDuration at *
  simp only [Duration, Time] at *
  split
  · omega
  · split <;> omega

theorem New_example {σ : Type} (inner : ConnBind σ) :
    New inner (goString "01") 443 Second =
      .ok (some { inner := inner, port443 := 443, payload := [1], lastSent := fun _ => none,
                  interval := Second }, none) := by
  rfl

/-- C10: a decorator built by `New` with payload `"01"`, port 443 and an interval of one
second, then two sends for the same destination less than one second apart, the first
batch holding a handshake initiation (the second batch may hold one or not): one probe in
all, to the destination address on port 443 with payload `[0x01]`, and both batches
forwarded to the wrapped transport in order. -/
theorem end_to_end {σ : Type} (inner : ConnBind σ) (s : σ) (ep1 ep2 : Endpoint)
    (bufs1 bufs2 : List (List Byte)) (t1 t2 : Time)
    (hdst : ep2.DstIP = ep1.DstIP) (hclock : IsClockReading t1) (hlt : t2 - t1 < Second)
    (hm1 : ∃ buf ∈ bufs1, handshakeInitiation buf = .ok true) :
    ∃ b r1 r2, New inner (goString "01") 443 Second = .ok (some b, none) ∧
      b.Send bufs1 ep1 t1 s = .ok r1 ∧ r1.bind.Send bufs2 ep2 t2 r1.inner = .ok r2 ∧
      r1.probes ++ r2.probes = [{ ip := ep1.DstIP, port := 443, payload := [1] }] ∧
      r1.err = (inner.Send bufs1 ep1 s).1 ∧ r1.inner = (inner.Send bufs1 ep1 s).2 ∧
      r2.err = (inner.Send bufs2 ep2 r1.inner).1 ∧
      r2.inner = (inner.Send bufs2 ep2 r1.inner).2 := by
  refine ⟨Bind.mk inner 443 [1] (fun _ => none) Second, ?_⟩
  obtain ⟨r1, hr1, -, he1, hi1, hcase1⟩ :=
    Send_cases (Bind.mk inner 443 [1] (fun _ => none) Second) bufs1 ep1 t1 s
  have hadm1 : ¬ Time.Sub t1 (Ledger.lookup (fun _ => none) ep1.DstIP) < Second := by
    have : Ledger.lookup (fun _ => none) ep1.DstIP = Time.zero := rfl
    rw [this, Time.Sub_zero_of_clock t1 hclock]
    decide
  rcases hcase1 with ⟨-, -, hlt1⟩ | ⟨-, -, hb1, hp1⟩
  · exact absurd (hlt1 hm1) hadm1
  obtain ⟨r2, hr2, -, he2, hi2, hcase2⟩ := Send_cases r1.bind bufs2 ep2 t2 r1.inner
  have hlast : r1.bind.lastSent.lookup ep2.DstIP = t1 := by
    rw [hb1, hdst]; simp [Ledger.lookup, Ledger.store]
  have hsub : Time.Sub t2 t1 < Second := Time.Sub_lt_of_lt t2 t1 Second hlt (by decide)
  have hin : r1.bind.inner = inner := by rw [hb1]
  have hiv : r1.bind.interval = Second := by rw [hb1]
  rw [hlast, hiv] at hcase2
  rw [hin] at he2 hi2
  rcases hcase2 with ⟨-, hp2, -⟩ | ⟨-, hn, -, -⟩
  · exact ⟨r1, r2, New_example inner, hr1, hr2, by rw [hp1, hp2]; rfl, he1, hi1, he2, hi2⟩
  · exact absurd hsub hn

/-- Witness of C10: sends at the Unix epoch and 500 ms later through the recording
transport. -/
theorem end_to_end_witness :
    ∃ b r1 r2, New recorder (goString "01") 443 Second = .ok (some b, none) ∧
      b.Send [[1, 0, 0, 0] ++ List.replicate 144 0] ⟨⟨1, ""⟩, "peer"⟩ unixEpoch [] = .ok r1 ∧
      r1.bind.Send [[1, 0, 0, 0] ++ List.replicate 144 0] ⟨⟨1, ""⟩, "peer"⟩
        (unixEpoch + 500 * Millisecond) r1.inner = .ok r2 ∧
      r1.probes ++ r2.probes = [{ ip := ⟨1, ""⟩, port := 443, payload := [1] }] ∧
      r1.err = (recorder.Send [[1, 0, 0, 0] ++ List.replicate 144 0]
        ⟨⟨1, ""⟩, "peer"⟩ []).1 ∧
      r1.inner = (recorder.Send [[1, 0, 0, 0] ++ List.replicate 144 0]
        ⟨⟨1, ""⟩, "peer"⟩ []).2 ∧
      r2.err = (recorder.Send [[1, 0, 0, 0] ++ List.replicate 144 0]
        ⟨⟨1, ""⟩, "peer"⟩ r1.inner).1 ∧
      r2.inner = (recorder.Send [[1, 0, 0, 0] ++ List.replicate 144 0]
        ⟨⟨1, ""⟩, "peer"⟩ r1.inner).2 :=
  end_to_end recorder [] ⟨⟨1, ""⟩, "peer"⟩ ⟨⟨1, ""⟩, "peer"⟩
    [[1, 0, 0, 0] ++ List.replicate 144 0] [[1, 0, 0, 0] ++ List.replicate 144 0]
    unixEpoch (unixEpoch + 500 * Millisecond) rfl (by decide) (by decide)
    ⟨_, List.mem_singleton.2 rfl, initiation_example⟩

/-! ## Construction -/

theorem fromHexChar_of_digit (c : Byte) (h : IsHexDigit c) :
    fromHexChar c = some (hexDigitValue c) := by
  unfold IsHexDigit at h
  unfold fromHexChar hexDigitValue asciiLower
  simp only [Byte] at *
  split_ifs <;> first | omega | congr 1

theorem fromHexChar_eq_none (c : Byte) (h : ¬ IsHexDigit c) : fromHexChar c = none := by
  unfold IsHexDigit at h
  unfold fromHexChar
  simp only [Byte] at *
  split_ifs <;> first | rfl | omega

theorem hexDigitValue_lt (c : Byte) (h : IsHexDigit c) : hexDigitValue c < 16 := by
  unfold IsHexDigit at h
  unfold hexDigitValue asciiLower
  simp only [Byte] at *
  split_ifs <;> omega

theorem nibbles (a b : Nat) (ha : a < 16) (hb : b < 16) :
    ((a <<< 4) % 256) ||| b = 16 * a + b := by
  revert b
  revert a
  decide

theorem asciiLower_idem (c : Byte) : asciiLower (asciiLower c) = asciiLower c := by
  unfold asciiLower
  simp only [Byte] at *
  split_ifs <;> omega

theorem hexDigitValue_lower (c : Byte) : hexDigitValue (asciiLower c) = hexDigitValue c := by
  unfold hexDigitValue
  rw [asciiLower_idem]

theorem isHexDigit_of_lower_eq (c d : Byte) (h : asciiLower d = asciiLower c)
    (hc : IsHexDigit c) : IsHexDigit d := by
  unfold IsHexDigit at *
  unfold asciiLower at h
  simp only [Byte] at *
  split_ifs at h <;> omega

theorem DecodeString_valid : ∀ h : List Byte, ValidHex h →
    hex.DecodeString h = (hexValue h, none)
  | [], _ => rfl
  | [_], hv => by simp [ValidHex] at hv
  | p :: q :: rest, hv => by
    have hp : IsHexDigit p := hv.2 p (by simp)
    have hq : IsHexDigit q := hv.2 q (by simp)
    have hrest : ValidHex rest := by
      refine ⟨?_, fun c hc => hv.2 c (by simp [hc])⟩
      have := hv.1
      simp only [List.length_cons] at this
      omega
    simp only [hex.DecodeString, fromHexChar_of_digit p hp, fromHexChar_of_digit q hq,
      DecodeString_valid rest hrest, hexValue,
      nibbles _ _ (hexDigitValue_lt p hp) (hexDigitValue_lt q hq)]

theorem DecodeString_invalid : ∀ h : List Byte, ¬ ValidHex h →
    (hex.DecodeString h).2 ≠ none
  | [], hv => absurd (by simp [ValidHex]) hv
  | [p], _ => by
    simp only [hex.DecodeString]
    cases fromHexChar p <;> simp
  | p :: q :: rest, hv => by
    by_cases hp : IsHexDigit p
    · by_cases hq : IsHexDigit q
      · have hrest : ¬ ValidHex rest := by
          intro hr
          apply hv
          refine ⟨?_, ?_⟩
          · have := hr.1
            simp only [List.length_cons]
            omega
          · intro c hc
            simp only [List.mem_cons] at hc
            rcases hc with rfl | rfl | hc
            · exact hp
            · exact hq
            · exact hr.2 c hc
        simp only [hex.DecodeString, fromHexChar_of_digit p hp, fromHexChar_of_digit q hq]
        exact DecodeString_invalid rest hrest
      · simp [hex.DecodeString, fromHexChar_of_digit p hp, fromHexChar_eq_none q hq]
    · simp [hex.DecodeString, fromHexChar_eq_none p hp]

theorem goString_0x : goString "0x" = [48, 120] := by decide

theorem goString_0X : goString "0X" = [48, 88] := by decide

theorem slice_front (a b : Byte) (rest : List Byte) :
    slice (a :: b :: rest) 0 2 = .ok [a, b] := by
  simp [slice]

theorem slice_back (a b : Byte) (rest : List Byte) :
    slice (a :: b :: rest) 2 (a :: b :: rest).length = .ok rest := by
  simp [slice]

/-- The function `New` in closed form: it never panics, and decodes the string without
its marker. -/
theorem New_eq {σ : Type} (inner : ConnBind σ) (h : List Byte) (port : Int)
    (iv : Duration) :
    New inner h port iv =
      .ok (match (hex.DecodeString (dropMarker h)).2 with
        | some err => (none, some err)
        | none =>
          (some { inner := inner, port443 := port,
                  payload := (hex.DecodeString (dropMarker h)).1,
                  lastSent := fun _ => none, interval := iv }, none)) := by
  match h with
  | [] => simp [New, dropMarker, bind, Except.bind, pure, Except.pure]; rfl
  | [a] =>
    simp only [New, dropMarker, bind, Except.bind, pure, Except.pure, List.length_singleton]
    rw [if_neg (by omega)]
    simp only [Bool.false_eq_true, if_false]
    cases (hex.DecodeString [a]).2 <;> rfl
  | a :: b :: rest =>
    simp only [New, bind, Except.bind, pure, Except.pure, slice_front, goString_0x,
      goString_0X, List.length_cons]
    rw [if_pos (by omega)]
    by_cases h1 : a = 48 ∧ b = 120
    · obtain ⟨rfl, rfl⟩ := h1
      simp only [if_true, dropMarker]
      have := slice_back 48 120 rest
      simp only [List.length_cons] at this
      rw [this]
      dsimp only
      cases (hex.DecodeString rest).2 <;> rfl
    · by_cases h2 : a = 48 ∧ b = 88
      · obtain ⟨rfl, rfl⟩ := h2
        simp only [dropMarker]
        have := slice_back 48 88 rest
        simp only [List.length_cons] at this
        simp only [show ¬ ([48, 88] : List Byte) = [48, 120] by decide, if_false,
          decide_True, if_true, this]
        cases (hex.DecodeString rest).2 <;> rfl
      · have hd : dropMarker (a :: b :: rest) = a :: b :: rest := by
          unfold dropMarker
          split
          · rename_i heq
            simp only [List.cons.injEq] at heq
            exact absurd ⟨heq.1, heq.2.1⟩ h1
          · rename_i heq
            simp only [List.cons.injEq] at heq
            exact absurd ⟨heq.1, heq.2.1⟩ h2
          · rfl
        have e1 : ¬ [a, b] = ([48, 120] : List Byte) := by
          intro e; simp at e; exact h1 e
        have e2 : ¬ [a, b] = ([48, 88] : List Byte) := by
          intro e; simp at e; exact h2 e
        simp only [hd, e1, e2, if_false, decide_False, Bool.false_eq_true]
        cases (hex.DecodeString (a :: b :: rest)).2 <;> rfl

theorem hexValue_lower : ∀ h : List Byte, hexValue (h.map asciiLower) = hexValue h
  | [] => rfl
  | [_] => rfl
  | p :: q :: rest => by
    simp only [List.map_cons, hexValue, hexDigitValue_lower, hexValue_lower rest]

theorem dropMarker_valid (h : List Byte) (hv : ValidHex h) : dropMarker h = h := by
  unfold dropMarker
  split
  · have := hv.2 120 (by simp)
    exact absurd this (by decide)
  · have := hv.2 88 (by simp)
    exact absurd this (by decide)
  · rfl

theorem validHex_of_lower_eq (h h2 : List Byte) (hv : ValidHex h)
    (hcase : h2.map asciiLower = h.map asciiLower) : ValidHex h2 := by
  refine ⟨?_, ?_⟩
  · have hl : h2.length = h.length := by
      have := congrArg List.length hcase
      simpa using this
    rw [hl]; exact hv.1
  · intro d hd
    have hmem : asciiLower d ∈ h.map asciiLower := by
      rw [← hcase]; exact List.mem_map_of_mem _ hd
    obtain ⟨c, hc, hcd⟩ := List.mem_map.1 hmem
    exact isHexDigit_of_lower_eq c d hcd.symm (hv.2 c hc)

/-- C8: for a string `h` of an even number of hexadecimal digits and any `h2` equal to it
up to the case of its letters (`h` itself included), `New` on `h2`, on `"0x" + h2` and on
`"0X" + h2` succeeds and stores as payload the bytes that `h` denotes. -/
theorem New_hex_payload {σ : Type} (inner : ConnBind σ) (port : Int) (iv : Duration)
    (h h2 : List Byte) (hd : ∀ c ∈ h, IsHexDigit c) (he : h.length % 2 = 0)
    (hcase : h2.map asciiLower = h.map asciiLower) :
    New inner h2 port iv =
      .ok (some { inner := inner, port443 := port, payload := hexValue h,
                  lastSent := fun _ => none, interval := iv }, none) ∧
    New inner (goString "0x" ++ h2) port iv =
      .ok (some { inner := inner, port443 := port, payload := hexValue h,
                  lastSent := fun _ => none, interval := iv }, none) ∧
    New inner (goString "0X" ++ h2) port iv =
      .ok (some { inner := inner, port443 := port, payload := hexValue h,
                  lastSent := fun _ => none, interval := iv }, none) := by
  have hv2 : ValidHex h2 := validHex_of_lower_eq h h2 ⟨he, hd⟩ hcase
  have hval : hexValue h2 = hexValue h := by
    rw [← hexValue_lower h2, hcase, hexValue_lower h]
  have hdec := DecodeString_valid h2 hv2
  have m1 : dropMarker (goString "0x" ++ h2) = h2 := by rw [goString_0x]; rfl
  have m2 : dropMarker (goString "0X" ++ h2) = h2 := by rw [goString_0X]; rfl
  refine ⟨?_, ?_, ?_⟩
  · rw [New_eq, dropMarker_valid h2 hv2, hdec, hval]
  · rw [New_eq, m1, hdec, hval]
  · rw [New_eq, m2, hdec, hval]

/-- Witness of C8: `"aabb"` and `"0xAABB"` both give the payload of `"AABB"`, which is
`[0xAA, 0xBB]`. -/
theorem New_hex_payload_witness :
    (New recorder (goString "aabb") 443 Second =
      .ok (some { inner := recorder, port443 := 443, payload := hexValue (goString "AABB"),
                  lastSent := fun _ => none, interval := Second }, none) ∧
     New recorder (goString "0xAABB") 443 Second =
      .ok (some { inner := recorder, port443 := 443, payload := hexValue (goString "AABB"),
                  lastSent := fun _ => none, interval := Second }, none)) ∧
    hexValue (goString "AABB") = [170, 187] :=
  ⟨⟨(New_hex_payload recorder 443 Second (goString "AABB") (goString "aabb")
      (by decide) (by decide) (by decide)).1,
    (New_hex_payload recorder 443 Second (goString "AABB") (goString "AABB")
      (by decide) (by decide) rfl).2.1⟩, by decide⟩

/-- C9: `New` never panics, and returns an error, with a nil decorator, exactly when the
payload string without at most one leading `0x` or `0X` has odd length or holds a
character that is no hexadecimal digit; otherwise it returns the decorator with the given
transport, port and interval, whatever they are. -/
theorem New_error_iff {σ : Type} (inner : ConnBind σ) (h : List Byte) (port : Int)
    (iv : Duration) :
    ∃ b err, New inner h port iv = .ok (b, err) ∧
      (err ≠ none ↔
        ((dropMarker h).length % 2 = 1 ∨ ∃ c ∈ dropMarker h, ¬ IsHexDigit c)) ∧
      (err ≠ none → b = none) ∧
      (err = none →
        b = some { inner := inner, port443 := port, payload := hexValue (dropMarker h),
                   lastSent := fun _ => none, interval := iv }) := by
  have hiff : ValidHex (dropMarker h) ↔
      ¬ ((dropMarker h).length % 2 = 1 ∨ ∃ c ∈ dropMarker h, ¬ IsHexDigit c) := by
    unfold ValidHex
    constructor
    · rintro ⟨h1, h2⟩ (h3 | ⟨c, hc, hn⟩)
      · omega
      · exact hn (h2 c hc)
    · intro hn
      refine ⟨?_, fun c hc => ?_⟩
      · by_contra h1
        exact hn (Or.inl (by omega))
      · by_contra h2
        exact hn (Or.inr ⟨c, hc, h2⟩)
  rw [New_eq]
  by_cases hv : ValidHex (dropMarker h)
  · rw [DecodeString_valid _ hv]
    refine ⟨_, _, rfl, ?_, ?_, ?_⟩
    · constructor
      · intro hne; exact absurd rfl hne
      · intro hbad; exact absurd hbad (hiff.1 hv)
    · intro hne; exact absurd rfl hne
    · intro _; rfl
  · have hne := DecodeString_invalid _ hv
    cases hE : (hex.DecodeString (dropMarker h)).2 with
    | none => exact absurd hE hne
    | some e =>
      refine ⟨_, _, rfl, ?_, ?_, ?_⟩
      · constructor
        · intro _
          by_contra hc
          exact hv (hiff.2 hc)
        · intro _; simp
      · intro _; rfl
      · intro hc; simp at hc

/-- Witness of C9: the string `"zz"` is refused. -/
theorem New_error_iff_witness :
    ∃ b err, New recorder (goString "zz") 443 Second = .ok (b, err) ∧ err ≠ none ∧
      b = none := by
  obtain ⟨b, err, h, hiff, hnil, -⟩ := New_error_iff recorder (goString "zz") 443 Second
  have he : err ≠ none := hiff.2 (Or.inr ⟨122, by decide, by decide⟩)
  exact ⟨b, err, h, he, hnil he⟩

/-! ## The delegating methods -/

/-- C12: each of `Open`, `Close`, `SetMark`, `ParseEndpoint` and `BatchSize` returns what
the same method of the wrapped transport returns on the same argument, leaves the wrapped
transport as that one call leaves it, and leaves the decorator (ledger, payload, port,
interval) as it was. -/
theorem delegates {σ : Type} (b : Bind σ) (s : σ) (port m : Nat) (str : String) :
    ((b.Open port s).value = (b.inner.Open port s).1 ∧
      (b.Open port s).inner = (b.inner.Open port s).2 ∧ (b.Open port s).bind = b) ∧
    ((b.Close s).value = (b.inner.Close s).1 ∧
      (b.Close s).inner = (b.inner.Close s).2 ∧ (b.Close s).bind = b) ∧
    ((b.SetMark m s).value = (b.inner.SetMark m s).1 ∧
      (b.SetMark m s).inner = (b.inner.SetMark m s).2 ∧ (b.SetMark m s).bind = b) ∧
    ((b.ParseEndpoint str s).value = (b.inner.ParseEndpoint str s).1 ∧
      (b.ParseEndpoint str s).inner = (b.inner.ParseEndpoint str s).2 ∧
      (b.ParseEndpoint str s).bind = b) ∧
    ((b.BatchSize s).value = (b.inner.BatchSize s).1 ∧
      (b.BatchSize s).inner = (b.inner.BatchSize s).2 ∧ (b.BatchSize s).bind = b) :=
  ⟨⟨rfl, rfl, rfl⟩, ⟨rfl, rfl, rfl⟩, ⟨rfl, rfl, rfl⟩, ⟨rfl, rfl, rfl⟩, ⟨rfl, rfl, rfl⟩⟩

/-! ## Further properties of the classifier and of `Send` -/

/-- C14: for a destination without a ledger entry, a matching `Send` is admitted, for
every 64-bit interval and every reading of the clock: the elapsed time against the zero
time is the largest duration, never below the interval. -/
theorem first_send_admitted {σ : Type} (b : Bind σ) (s : σ) (ep : Endpoint)
    (bufs : List (List Byte)) (now : Time) (hnone : b.lastSent ep.DstIP = none)
    (hiv : Duration.InRange b.interval) (hclock : IsClockReading now)
    (hm : ∃ buf ∈ bufs, handshakeInitiation buf = .ok true) :
    Time.Sub now (b.lastSent.lookup ep.DstIP) = maxDuration ∧
    ¬ Time.Sub now (b.lastSent.lookup ep.DstIP) < b.interval ∧
    ∃ r, b.Send bufs ep now s = .ok r ∧
      r.probes = [{ ip := ep.DstIP, port := b.port443, payload := b.payload }] ∧
      r.bind.lastSent ep.DstIP = some now := by
  have hlook : b.lastSent.lookup ep.DstIP = Time.zero := by simp [Ledger.lookup, hnone]
  have hsub : Time.Sub now (b.lastSent.lookup ep.DstIP) = maxDuration := by
    rw [hlook]; exact Time.Sub_zero_of_clock now hclock
  have hadm : ¬ Time.Sub now (b.lastSent.lookup ep.DstIP) < b.interval := by
    rw [hsub]; exact not_lt.2 hiv.2
  refine ⟨hsub, hadm, ?_⟩
  obtain ⟨r, hr, -, -, -, hcase⟩ := Send_cases b bufs ep now s
  rcases hcase with ⟨-, -, hlt⟩ | ⟨-, -, hb, hp⟩
  · exact absurd (hlt hm) hadm
  · exact ⟨r, hr, hp, by rw [hb]; exact store_self _ _ _⟩

/-- Witness of C14: the largest interval, a send at the Unix epoch. -/
theorem first_send_admitted_witness :
    Time.Sub unixEpoch (Ledger.lookup (fun _ => none) ⟨1, ""⟩) = maxDuration ∧
    ¬ Time.Sub unixEpoch (Ledger.lookup (fun _ => none) ⟨1, ""⟩) < maxDuration ∧
    ∃ r, (Bind.mk recorder 443 [1] (fun _ => none) maxDuration).Send
        [[1, 0, 0, 0] ++ List.replicate 144 0] ⟨⟨1, ""⟩, "peer"⟩ unixEpoch [] = .ok r ∧
      r.probes = [{ ip := ⟨1, ""⟩, port := 443, payload := [1] }] ∧
      r.bind.lastSent ⟨1, ""⟩ = some unixEpoch :=
  first_send_admitted (Bind.mk recorder 443 [1] (fun _ => none) maxDuration) []
    ⟨⟨1, ""⟩, "peer"⟩ [[1, 0, 0, 0] ++ List.replicate 144 0] unixEpoch rfl (by decide)
    (by decide) ⟨_, List.mem_singleton.2 rfl, initiation_example⟩

theorem seenInitFull_eq (bufs : List (List Byte)) :
    seenInitFull bufs = .ok (bufs.any fun buf => decide (IsInitiation buf)) := by
  induction bufs with
  | nil => rfl
  | cons buf rest ih =>
    simp only [seenInitFull, handshakeInitiation_eq, bind, Except.bind, pure, Except.pure, ih,
      List.any_cons]

theorem any_initiation_perm (bufs bufs2 : List (List Byte)) (h : bufs.Perm bufs2) :
    (bufs2.any fun buf => decide (IsInitiation buf)) =
      (bufs.any fun buf => decide (IsInitiation buf)) := by
  rw [Bool.eq_iff_iff]
  simp only [List.any_eq_true]
  constructor
  · rintro ⟨x, hx, hd⟩; exact ⟨x, h.mem_iff.2 hx, hd⟩
  · rintro ⟨x, hx, hd⟩; exact ⟨x, h.mem_iff.1 hx, hd⟩

/-- C15: the match decision on a batch is the logical or of `handshakeInitiation` over its
buffers: it is true exactly when some buffer matches, it is the result of the scan without
the `break`, and it, and with it the whole of `maybePreflight`, is the same on every
permutation of the batch. -/
theorem seenInit_or (bufs bufs2 : List (List Byte)) :
    seenInit bufs = .ok (bufs.any fun buf => decide (handshakeInitiation buf = .ok true)) ∧
    (seenInit bufs = .ok true ↔ ∃ buf ∈ bufs, handshakeInitiation buf = .ok true) ∧
    (seenInit bufs = .ok false ↔ ∀ buf ∈ bufs, handshakeInitiation buf = .ok false) ∧
    seenInit bufs = seenInitFull bufs ∧
    (bufs.Perm bufs2 → seenInit bufs2 = seenInit bufs ∧
      ∀ (σ : Type) (b : Bind σ) (ep : Endpoint) (now : Time),
        b.maybePreflight ep bufs2 now = b.maybePreflight ep bufs now) := by
  refine ⟨?_, seenInit_true_iff bufs, ?_, ?_, ?_⟩
  · rw [seenInit_eq]
    congr 2
    funext buf
    simp [handshakeInitiation_eq]
  · rw [seenInit_false_iff]
    simp [Matches, handshakeInitiation_eq]
  · rw [seenInit_eq, seenInitFull_eq]
  · intro hperm
    have hs : seenInit bufs2 = seenInit bufs := by
      rw [seenInit_eq, seenInit_eq, any_initiation_perm bufs bufs2 hperm]
    refine ⟨hs, fun σ b ep now => ?_⟩
    simp only [Bind.maybePreflight, hs]

/-- Witness of C15: a batch of a short buffer and an initiation, and its reversal. -/
theorem seenInit_or_witness :
    seenInit [[1, 0, 0, 0] ++ List.replicate 144 0, [1, 0, 0]] =
      seenInit [[1, 0, 0], [1, 0, 0, 0] ++ List.replicate 144 0] ∧
    ∀ (σ : Type) (b : Bind σ) (ep : Endpoint) (now : Time),
      b.maybePreflight ep [[1, 0, 0, 0] ++ List.replicate 144 0, [1, 0, 0]] now =
        b.maybePreflight ep [[1, 0, 0], [1, 0, 0, 0] ++ List.replicate 144 0] now :=
  (seenInit_or [[1, 0, 0], [1, 0, 0, 0] ++ List.replicate 144 0]
    [[1, 0, 0, 0] ++ List.replicate 144 0, [1, 0, 0]]).2.2.2.2 (List.Perm.swap _ _ _)

/-- C16: a buffer accepted by `handshakeInitiation` stays accepted when any bytes are
appended to it. -/
theorem initiation_append (buf tail : List Byte)
    (h : handshakeInitiation buf = .ok true) :
    handshakeInitiation (buf ++ tail) = .ok true := by
  rw [handshakeInitiation_eq] at h ⊢
  have hi : IsInitiation buf := by simpa using h
  obtain ⟨hlen, h0, h1, h2, h3⟩ := hi
  have hget : ∀ i v, buf.get? i = some v → (buf ++ tail).get? i = some v := by
    intro i v hv
    have hlt : i < buf.length := by
      by_contra hge
      rw [List.get?_eq_none.2 (by omega)] at hv
      exact Option.noConfusion hv
    rw [List.get?_eq_getElem?] at hv ⊢
    rw [List.getElem?_append_left hlt]; exact hv
  have : IsInitiation (buf ++ tail) :=
    ⟨by rw [List.length_append]; omega, hget 0 1 h0, hget 1 0 h1, hget 2 0 h2, hget 3 0 h3⟩
  simp [this]

/-- Witness of C16: an initiation followed by two bytes of padding. -/
theorem initiation_append_witness :
    handshakeInitiation (([1, 0, 0, 0] ++ List.replicate 144 0) ++ [7, 7]) = .ok true :=
  initiation_append ([1, 0, 0, 0] ++ List.replicate 144 0) [7, 7] initiation_example

/-- C17: a `Send` leaves payload, port, interval and wrapped transport of the decorator as
they were, and the ledger entry of every address other than that of the endpoint. -/
theorem Send_frame {σ : Type} (b : Bind σ) (bufs : List (List Byte)) (ep : Endpoint)
    (now : Time) (s : σ) :
    ∃ r, b.Send bufs ep now s = .ok r ∧ r.bind.payload = b.payload ∧
      r.bind.port443 = b.port443 ∧ r.bind.interval = b.interval ∧
      r.bind.inner = b.inner ∧ ∀ d, d ≠ ep.DstIP → r.bind.lastSent d = b.lastSent d := by
  obtain ⟨r, hr, -, -, -, hcase⟩ := Send_cases b bufs ep now s
  refine ⟨r, hr, ?_⟩
  rcases hcase with ⟨hb, -, -⟩ | ⟨-, -, hb, -⟩
  · rw [hb]; exact ⟨rfl, rfl, rfl, rfl, fun _ _ => rfl⟩
  · rw [hb]; exact ⟨rfl, rfl, rfl, rfl, fun d hd => store_other _ _ _ _ hd⟩

/-- Witness of C17: an admitted send for address 1 leaves the entry of address 2. -/
theorem Send_frame_witness :
    ∃ r, (Bind.mk recorder 443 [1] (fun _ => some 5) Second).Send
        [[1, 0, 0, 0] ++ List.replicate 144 0] ⟨⟨1, ""⟩, "peer"⟩ unixEpoch [] = .ok r ∧
      r.bind.lastSent ⟨2, ""⟩ = some 5 := by
  obtain ⟨r, hr, -, -, -, -, h⟩ := Send_frame (Bind.mk recorder 443 [1] (fun _ => some 5) Second)
    [[1, 0, 0, 0] ++ List.replicate 144 0] ⟨⟨1, ""⟩, "peer"⟩ unixEpoch []
  exact ⟨r, hr, h ⟨2, ""⟩ (by decide)⟩

/-! ## Runs from a constructed decorator -/

theorem New_ok {σ : Type} (inner : ConnBind σ) (h : List Byte) (port : Int) (iv : Duration)
    (b0 : Bind σ) (hnew : New inner h port iv = .ok (some b0, none)) :
    b0 = { inner := inner, port443 := port, payload := (hex.DecodeString (dropMarker h)).1,
           lastSent := fun _ => none, interval := iv } ∧
    (hex.DecodeString (dropMarker h)).1 = hexValue (dropMarker h) := by
  rw [New_eq] at hnew
  by_cases hv : ValidHex (dropMarker h)
  · rw [DecodeString_valid _ hv] at hnew ⊢
    have := Except.ok.inj hnew
    simp only [Prod.mk.injEq, Option.some.injEq, and_true] at this
    exact ⟨this.symm, rfl⟩
  · have hne := DecodeString_invalid _ hv
    cases hE : (hex.DecodeString (dropMarker h)).2 with
    | none => exact absurd hE hne
    | some e =>
      rw [hE] at hnew
      have := Except.ok.inj hnew
      simp at this

/-- A run leaves the configuration as it was, and every probe it launches carries the
configured port and payload. -/
theorem sendAll_config {σ : Type} (cs : List Call) :
    ∀ (b : Bind σ) (s : σ),
      ∃ r, b.sendAll s cs = .ok r ∧ r.bind.interval = b.interval ∧
        r.bind.port443 = b.port443 ∧ r.bind.payload = b.payload ∧ r.bind.inner = b.inner ∧
        ∀ e ∈ r.launched, e.2.port = b.port443 ∧ e.2.payload = b.payload := by
  induction cs with
  | nil =>
    intro b s
    exact ⟨_, rfl, rfl, rfl, rfl, rfl, by simp⟩
  | cons c cs ih =>
    intro b s
    obtain ⟨r, hr, -, -, -, hcase⟩ := Send_cases b c.bufs c.ep c.now s
    obtain ⟨rest, hrest, h1, h2, h3, h4, h5⟩ := ih r.bind r.inner
    refine ⟨_, sendAll_cons b s c cs r rest hr hrest, ?_⟩
    rcases hcase with ⟨hb, hp, -⟩ | ⟨-, -, hb, hp⟩
    · rw [hb] at h1 h2 h3 h4 h5
      refine ⟨h1, h2, h3, h4, ?_⟩
      intro e he
      simp only [hp, List.map_nil, List.nil_append] at he
      exact h5 e he
    · rw [hb] at h1 h2 h3 h4 h5
      refine ⟨h1, h2, h3, h4, ?_⟩
      intro e he
      simp only [hp, List.map_cons, List.map_nil, List.singleton_append, List.mem_cons] at he
      rcases he with rfl | he
      · exact ⟨rfl, rfl⟩
      · exact h5 e he

/-- C11: for a decorator built by `New`, after any earlier sends, the probes a `Send`
launches (none or one) are addressed to the `DstIP()` of its endpoint and the port given
to `New`, with the bytes decoded from the hex string given to `New` as payload, whatever
the buffers sent. -/
theorem probe_target {σ : Type} (inner : ConnBind σ) (h : List Byte) (port : Int)
    (iv : Duration) (b0 : Bind σ) (hnew : New inner h port iv = .ok (some b0, none))
    (cs : List Call) (s : σ) (bufs : List (List Byte)) (ep : Endpoint) (now : Time) :
    ∃ rm r, b0.sendAll s cs = .ok rm ∧ rm.bind.Send bufs ep now rm.inner = .ok r ∧
      (r.probes = [] ∨
        r.probes = [{ ip := ep.DstIP, port := port,
                      payload := (hex.DecodeString (dropMarker h)).1 }]) ∧
      (∀ p ∈ r.probes, p.ip = ep.DstIP ∧ p.port = port ∧
        p.payload = (hex.DecodeString (dropMarker h)).1 ∧
        p.payload = hexValue (dropMarker h)) := by
  obtain ⟨hb0, hval⟩ := New_ok inner h port iv b0 hnew
  obtain ⟨rm, hrm, -, hport, hpay, -, -⟩ := sendAll_config cs b0 s
  obtain ⟨r, hr, -, -, -, hcase⟩ := Send_cases rm.bind bufs ep now rm.inner
  have hport2 : rm.bind.port443 = port := by rw [hport, hb0]
  have hpay2 : rm.bind.payload = (hex.DecodeString (dropMarker h)).1 := by rw [hpay, hb0]
  refine ⟨rm, r, hrm, hr, ?_, ?_⟩
  · rcases hcase with ⟨-, hp, -⟩ | ⟨-, -, -, hp⟩
    · exact Or.inl hp
    · exact Or.inr (by rw [hp, hport2, hpay2])
  · intro p hp
    rcases hcase with ⟨-, hpr, -⟩ | ⟨-, -, -, hpr⟩
    · rw [hpr] at hp; simp at hp
    · rw [hpr] at hp
      have := List.mem_singleton.1 hp
      subst this
      exact ⟨rfl, hport2, hpay2, by rw [← hval]; exact hpay2⟩

/-- Witness of C11: payload string `"0xAABB"`, port 443, a first matching send. -/
theorem probe_target_witness :
    ∃ rm r, (Bind.mk recorder 443 [170, 187] (fun _ => none) Second).sendAll [] [] = .ok rm ∧
      rm.bind.Send [[1, 0, 0, 0] ++ List.replicate 144 0] ⟨⟨1, ""⟩, "peer"⟩ unixEpoch
        rm.inner = .ok r ∧
      (r.probes = [] ∨
        r.probes = [{ ip := ⟨1, ""⟩, port := 443,
                      payload := (hex.DecodeString (dropMarker (goString "0xAABB"))).1 }]) ∧
      (∀ p ∈ r.probes, p.ip = ⟨1, ""⟩ ∧ p.port = 443 ∧
        p.payload = (hex.DecodeString (dropMarker (goString "0xAABB"))).1 ∧
        p.payload = hexValue (dropMarker (goString "0xAABB"))) :=
  probe_target recorder (goString "0xAABB") 443 Second
    (Bind.mk recorder 443 [170, 187] (fun _ => none) Second) rfl [] []
    [[1, 0, 0, 0] ++ List.replicate 144 0] ⟨⟨1, ""⟩, "peer"⟩ unixEpoch

/-! ## The ledger over time -/

theorem perform_keeps {σ : Type} (b : Bind σ) (s : σ) (op : Op) (d : Addr)
    (h : (b.lastSent d).isSome) :
    ∃ r, b.perform s op = .ok r ∧ (r.1.lastSent d).isSome := by
  cases op with
  | Send bufs ep now =>
    obtain ⟨r, hr, -, -, -, hcase⟩ := Send_cases b bufs ep now s
    refine ⟨(r.bind, r.inner), by simp [Bind.perform, hr, bind, Except.bind, pure,
      Except.pure], ?_⟩
    rcases hcase with ⟨hb, -, -⟩ | ⟨-, -, hb, -⟩
    · show (r.bind.lastSent d).isSome
      rw [hb]; exact h
    · show (r.bind.lastSent d).isSome
      rw [hb]
      show (b.lastSent.store ep.DstIP now d).isSome
      unfold Ledger.store
      split
      · rfl
      · exact h
  | Open port => exact ⟨_, rfl, h⟩
  | Close => exact ⟨_, rfl, h⟩
  | SetMark m => exact ⟨_, rfl, h⟩
  | ParseEndpoint str => exact ⟨_, rfl, h⟩
  | BatchSize => exact ⟨_, rfl, h⟩

/-- C18: no method of the decorator removes a ledger entry: an address with a recorded
timestamp has one after every sequence of `Send`, `Open`, `Close`, `SetMark`,
`ParseEndpoint` and `BatchSize` calls. -/
theorem entries_kept {σ : Type} (ops : List Op) :
    ∀ (b : Bind σ) (s : σ) (d : Addr), (b.lastSent d).isSome →
      ∃ r, b.performAll s ops = .ok r ∧ (r.1.lastSent d).isSome := by
  induction ops with
  | nil =>
    intro b s d h
    exact ⟨_, rfl, h⟩
  | cons op ops ih =>
    intro b s d h
    obtain ⟨r, hr, hk⟩ := perform_keeps b s op d h
    obtain ⟨r2, hr2, hk2⟩ := ih r.1 r.2 d hk
    exact ⟨r2, by simp [Bind.performAll, hr, hr2, bind, Except.bind], hk2⟩

/-- Witness of C18: an entry for address 1 survives a send for address 2, a `Close` and a
rejected send for address 1. -/
theorem entries_kept_witness :
    ∃ r, (Bind.mk recorder 443 [1] (fun a => if a = ⟨1, ""⟩ then some unixEpoch else none)
        Second).performAll []
        [.Send [[1, 0, 0, 0] ++ List.replicate 144 0] ⟨⟨2, ""⟩, "other"⟩ unixEpoch,
         .Close, .Open 51820, .SetMark 7, .ParseEndpoint "10.0.0.1:51820", .BatchSize,
         .Send [[1, 0, 0, 0] ++ List.replicate 144 0] ⟨⟨1, ""⟩, "peer"⟩ unixEpoch] = .ok r ∧
      (r.1.lastSent ⟨1, ""⟩).isSome :=
  entries_kept _ (Bind.mk recorder 443 [1]
    (fun a => if a = ⟨1, ""⟩ then some unixEpoch else none) Second) [] ⟨1, ""⟩ (by decide)

theorem lastLaunch_append (d : Addr) (xs ys : List (Time × Probe)) :
    lastLaunch d (xs ++ ys) = (lastLaunch d ys).or (lastLaunch d xs) := by
  unfold lastLaunch
  rw [List.filter_append, List.getLast?_append]
  cases (List.filter (fun e => decide (e.2.ip = d)) ys).getLast? <;> rfl

/-- After a run the ledger entry of `d` is the clock reading of the last probe launched
for `d` in the run, and the entry before the run when there is none. -/
theorem sendAll_ledger {σ : Type} (cs : List Call) :
    ∀ (b : Bind σ) (s : σ),
      ∃ r, b.sendAll s cs = .ok r ∧
        ∀ d, r.bind.lastSent d = (lastLaunch d r.launched).or (b.lastSent d) := by
  induction cs with
  | nil =>
    intro b s
    exact ⟨_, rfl, fun d => rfl⟩
  | cons c cs ih =>
    intro b s
    obtain ⟨r, hr, -, -, -, hcase⟩ := Send_cases b c.bufs c.ep c.now s
    obtain ⟨rest, hrest, hl⟩ := ih r.bind r.inner
    refine ⟨_, sendAll_cons b s c cs r rest hr hrest, ?_⟩
    intro d
    show rest.bind.lastSent d = _
    rw [hl d, lastLaunch_append, Option.or_assoc]
    congr 1
    rcases hcase with ⟨hb, hp, -⟩ | ⟨-, -, hb, hp⟩
    · rw [hb, hp]; rfl
    · rw [hb, hp]
      show b.lastSent.store c.ep.DstIP c.now d = _
      by_cases hd : d = c.ep.DstIP
      · subst hd
        simp [Ledger.store, lastLaunch]
      · have hne : ¬ c.ep.DstIP = d := fun e => hd e.symm
        simp [Ledger.store, lastLaunch, hd, hne]

/-- C19: from the empty ledger that `New` creates, after any sequence of `Send` calls an
address has a ledger entry exactly when a probe was launched for it, and the entry is the
clock reading of the last such probe; a `Send` that launches no probe, its batch not
matching or the rate limiter refusing, leaves the decorator as it was. -/
theorem ledger_tracks_probes {σ : Type} (inner : ConnBind σ) (h : List Byte) (port : Int)
    (iv : Duration) (b0 : Bind σ) (hnew : New inner h port iv = .ok (some b0, none))
    (cs : List Call) (s : σ) :
    ∃ r, b0.sendAll s cs = .ok r ∧
      (∀ d, r.bind.lastSent d = lastLaunch d r.launched) ∧
      (∀ d, (r.bind.lastSent d).isSome ↔ ∃ e ∈ r.launched, e.2.ip = d) ∧
      (∀ (bufs : List (List Byte)) (ep : Endpoint) (now : Time),
        ∃ r2, r.bind.Send bufs ep now r.inner = .ok r2 ∧
          (r2.probes = [] → r2.bind = r.bind) ∧
          (¬ (∃ buf ∈ bufs, handshakeInitiation buf = .ok true) → r2.probes = [])) := by
  obtain ⟨hb0, -⟩ := New_ok inner h port iv b0 hnew
  obtain ⟨r, hr, hl⟩ := sendAll_ledger cs b0 s
  have hl2 : ∀ d, r.bind.lastSent d = lastLaunch d r.launched := by
    intro d
    rw [hl d, hb0]
    exact Option.or_none
  refine ⟨r, hr, hl2, ?_, ?_⟩
  · intro d
    rw [hl2 d]
    unfold lastLaunch
    rw [Option.isSome_map']
    constructor
    · intro hs
      obtain ⟨e, he⟩ := Option.isSome_iff_exists.1 hs
      have hmem := List.mem_of_getLast?_eq_some he
      rw [List.mem_filter] at hmem
      exact ⟨e, hmem.1, by simpa using hmem.2⟩
    · rintro ⟨e, he, hip⟩
      have hmem : e ∈ List.filter (fun e => decide (e.2.ip = d)) r.launched :=
        List.mem_filter.2 ⟨he, by simpa using hip⟩
      cases hg : (List.filter (fun e => decide (e.2.ip = d)) r.launched).getLast? with
      | some x => rfl
      | none =>
        rw [List.getLast?_eq_none_iff] at hg
        rw [hg] at hmem
        simp at hmem
  · intro bufs ep now
    obtain ⟨r2, hr2, -, -, -, hcase⟩ := Send_cases r.bind bufs ep now r.inner
    refine ⟨r2, hr2, ?_, ?_⟩
    · intro hp
      rcases hcase with ⟨hb, -, -⟩ | ⟨-, -, -, hp2⟩
      · exact hb
      · rw [hp2] at hp; simp at hp
    · intro hn
      rcases hcase with ⟨-, hp, -⟩ | ⟨hm, -, -, -⟩
      · exact hp
      · exact absurd hm hn

set_option maxRecDepth 100000 in
/-- Witness of C19: three matching sends for address 1 at 0 ms, 500 ms and 1 s leave the
entry of the last probe, launched at 1 s, and no entry for address 2. -/
theorem ledger_tracks_probes_witness :
    ∃ r, (Bind.mk recorder 443 [1] (fun _ => none) Second).sendAll []
        [⟨unixEpoch, ⟨⟨1, ""⟩, "peer"⟩, [[1, 0, 0, 0] ++ List.replicate 144 0]⟩,
         ⟨unixEpoch + 500 * Millisecond, ⟨⟨1, ""⟩, "peer"⟩,
           [[1, 0, 0, 0] ++ List.replicate 144 0]⟩,
         ⟨unixEpoch + Second, ⟨⟨1, ""⟩, "peer"⟩, [[1, 0, 0, 0] ++ List.replicate 144 0]⟩]
        = .ok r ∧
      r.bind.lastSent ⟨1, ""⟩ = lastLaunch ⟨1, ""⟩ r.launched ∧
      r.bind.lastSent ⟨2, ""⟩ = lastLaunch ⟨2, ""⟩ r.launched := by
  obtain ⟨r, hr, hl, -, -⟩ := ledger_tracks_probes recorder (goString "01") 443 Second
    (Bind.mk recorder 443 [1] (fun _ => none) Second) rfl
    [⟨unixEpoch, ⟨⟨1, ""⟩, "peer"⟩, [[1, 0, 0, 0] ++ List.replicate 144 0]⟩,
     ⟨unixEpoch + 500 * Millisecond, ⟨⟨1, ""⟩, "peer"⟩,
       [[1, 0, 0, 0] ++ List.replicate 144 0]⟩,
     ⟨unixEpoch + Second, ⟨⟨1, ""⟩, "peer"⟩, [[1, 0, 0, 0] ++ List.replicate 144 0]⟩] []
  exact ⟨r, hr, hl _, hl _⟩

theorem Time.Sub_nonneg (t u : Time) (h : u ≤ t) : 0 ≤ Time.Sub t u := by
  unfold Time.Sub maxDuration minDuration
  simp only [Duration, Time] at *
  split
  · omega
  · split <;> omega

/-- With an interval of zero or less and no ledger entry later than the sends to come,
made at non-decreasing clock readings, every matching send launches a probe. -/
theorem sendAll_unlimited {σ : Type} (cs : List Call) :
    ∀ (b : Bind σ) (s : σ), b.interval ≤ 0 →
      (∀ c ∈ cs, ∀ d, b.lastSent.lookup d ≤ c.now) →
      cs.Pairwise (fun c1 c2 => c1.now ≤ c2.now) →
      ∃ r, b.sendAll s cs = .ok r ∧
        r.launched = (cs.filter fun c => decide (Matches c.bufs)).map fun c =>
          (c.now, { ip := c.ep.DstIP, port := b.port443, payload := b.payload }) := by
  induction cs with
  | nil =>
    intro b s _ _ _
    exact ⟨_, rfl, rfl⟩
  | cons c cs ih =>
    intro b s hiv hle hp
    obtain ⟨r, hr, hi, -, -, hcase⟩ := Send_cases b c.bufs c.ep c.now s
    have hp2 := List.pairwise_cons.1 hp
    have hadm : ¬ Time.Sub c.now (b.lastSent.lookup c.ep.DstIP) < b.interval := by
      have h0 := Time.Sub_nonneg c.now _ (hle c (List.mem_cons_self _ _) c.ep.DstIP)
      simp only [Duration, Time] at *
      omega
    have hle2 : ∀ c2 ∈ cs, ∀ d, r.bind.lastSent.lookup d ≤ c2.now := by
      intro c2 hc2 d
      rcases hcase with ⟨hb, -, -⟩ | ⟨-, -, hb, -⟩
      · rw [hb]; exact hle c2 (List.mem_cons_of_mem _ hc2) d
      · rw [hb]
        show Ledger.lookup (b.lastSent.store c.ep.DstIP c.now) d ≤ c2.now
        unfold Ledger.lookup Ledger.store
        split
        · exact hp2.1 c2 hc2
        · exact hle c2 (List.mem_cons_of_mem _ hc2) d
    obtain ⟨rest, hrest, hl⟩ := ih r.bind r.inner (by rw [hi]; exact hiv) hle2 hp2.2
    refine ⟨_, sendAll_cons b s c cs r rest hr hrest, ?_⟩
    show r.probes.map (fun p => (c.now, p)) ++ rest.launched = _
    rw [hl]
    rcases hcase with ⟨hb, hpr, hlt⟩ | ⟨hm, -, hb, hpr⟩
    · have hnm : ¬ Matches c.bufs := fun hm => hadm (hlt hm)
      rw [hpr, hb, List.filter_cons_of_neg (by simpa using hnm)]
      rfl
    · rw [hpr, hb, List.filter_cons_of_pos (by simpa using hm)]
      rfl

/-- C20: a decorator built by `New` with an interval of zero or less does not limit: over
every sequence of `Send` calls at non-decreasing clock readings, the probes launched are
one for each call whose batch holds a handshake initiation, in order, each at the clock
reading and for the address of its call. -/
theorem no_rate_limit {σ : Type} (inner : ConnBind σ) (h : List Byte) (port : Int)
    (iv : Duration) (b0 : Bind σ) (hnew : New inner h port iv = .ok (some b0, none))
    (hiv : iv ≤ 0) (cs : List Call) (s : σ) (hclock : ∀ c ∈ cs, IsClockReading c.now)
    (hmono : cs.Pairwise (fun c1 c2 => c1.now ≤ c2.now)) :
    ∃ r, b0.sendAll s cs = .ok r ∧
      r.launched = (cs.filter fun c => decide (Matches c.bufs)).map fun c =>
        (c.now, { ip := c.ep.DstIP, port := port,
                  payload := (hex.DecodeString (dropMarker h)).1 }) := by
  obtain ⟨hb0, -⟩ := New_ok inner h port iv b0 hnew
  have hle : ∀ c ∈ cs, ∀ d, b0.lastSent.lookup d ≤ c.now := by
    intro c hc d
    have h1 : b0.lastSent.lookup d = 0 := by rw [hb0]; rfl
    have h2 := hclock c hc
    unfold IsClockReading unixEpoch at h2
    rw [h1]
    simp only [Duration, Time] at *
    omega
  obtain ⟨r, hr, hl⟩ := sendAll_unlimited cs b0 s (by rw [hb0]; exact hiv) hle hmono
  refine ⟨r, hr, ?_⟩
  rw [hl, hb0]

set_option maxRecDepth 100000 in
/-- Witness of C20: interval zero, two matching sends for one address at the same clock
reading and a non-matching one. -/
theorem no_rate_limit_witness :
    ∃ r, (Bind.mk recorder 443 [1] (fun _ => none) 0).sendAll []
        [⟨unixEpoch, ⟨⟨1, ""⟩, "peer"⟩, [[1, 0, 0, 0] ++ List.replicate 144 0]⟩,
         ⟨unixEpoch, ⟨⟨1, ""⟩, "peer"⟩, [[1, 0, 0]]⟩,
         ⟨unixEpoch, ⟨⟨1, ""⟩, "peer"⟩, [[1, 0, 0, 0] ++ List.replicate 144 0]⟩] = .ok r ∧
      r.launched =
        [(unixEpoch, ⟨⟨1, ""⟩, 443, [1]⟩), (unixEpoch, ⟨⟨1, ""⟩, 443, [1]⟩)] := by
  obtain ⟨r, hr, hl⟩ := no_rate_limit recorder (goString "01") 443 0
    (Bind.mk recorder 443 [1] (fun _ => none) 0) rfl (by decide)
    [⟨unixEpoch, ⟨⟨1, ""⟩, "peer"⟩, [[1, 0, 0, 0] ++ List.replicate 144 0]⟩,
     ⟨unixEpoch, ⟨⟨1, ""⟩, "peer"⟩, [[1, 0, 0]]⟩,
     ⟨unixEpoch, ⟨⟨1, ""⟩, "peer"⟩, [[1, 0, 0, 0] ++ List.replicate 144 0]⟩] []
    (by decide) (by decide)
  refine ⟨r, hr, ?_⟩
  rw [hl]
  decide

/-! ## Goroutines in the rate-limit section: the invariant -/

theorem MutexInv.mutex_start {n : Nat} (gs : Fin n → Goroutine) (ledger : Ledger) :
    MutexInv gs (Race.init ledger : Race n) where
  mutex := fun i _ h => by simp [Race.init, Pc.inCrit] at h
  held := fun i h => by simp [Race.init, Pc.inCrit] at h
  fresh := fun i last h => by simp [Race.init] at h

theorem LedgerInv.ledger_start {n : Nat} (interval : Duration) (gs : Fin n → Goroutine)
    (ledger : Ledger) (d : Addr) : LedgerInv interval gs ledger d (Race.init ledger) where
  one := fun i _ _ _ h => by simp [Race.init, Pc.decided] at h
  entry := fun i _ h => by simp [Race.init, Pc.stored] at h
  untouched := fun _ => rfl
  refused := fun i _ h => by simp [Race.init, Pc.rejected] at h
  eligible := fun i _ h => by simp [Race.init, Pc.decided] at h

/-- A goroutine takes the free mutex. -/
theorem MutexInv.enter {n : Nat} {gs : Fin n → Goroutine} {st : Race n}
    (inv : MutexInv gs st) (i : Fin n) (hfree : st.locked = false) (p : Pc)
    (hp : ∀ last, p ≠ .check last) :
    MutexInv gs { st with locked := true, pc := Function.update st.pc i p } where
  mutex := by
    intro a b ha hb
    by_cases hai : a = i
    · by_cases hbi : b = i
      · rw [hai, hbi]
      · simp only [Function.update_noteq hbi] at hb
        have := inv.held b hb
        rw [hfree] at this
        exact Bool.noConfusion this
    · simp only [Function.update_noteq hai] at ha
      have := inv.held a ha
      rw [hfree] at this
      exact Bool.noConfusion this
  held := fun _ _ => rfl
  fresh := by
    intro a last ha
    by_cases hai : a = i
    · subst hai
      simp only [Function.update_same] at ha
      exact absurd ha (hp last)
    · simp only [Function.update_noteq hai] at ha
      exact inv.fresh a last ha

/-- The goroutine that holds the mutex goes on inside the section. -/
theorem MutexInv.stay {n : Nat} {gs : Fin n → Goroutine} {st : Race n}
    (inv : MutexInv gs st) (i : Fin n) (hin : (st.pc i).inCrit = true) (p : Pc)
    (ledger2 : Ledger) (hp : ∀ last, p = .check last → last = ledger2.lookup (gs i).dst) :
    MutexInv gs { st with lastSent := ledger2, pc := Function.update st.pc i p } where
  mutex := by
    intro a b ha hb
    have ha2 : a = i := by
      by_contra hai
      simp only [Function.update_noteq hai] at ha
      exact hai (inv.mutex a i ha hin)
    have hb2 : b = i := by
      by_contra hbi
      simp only [Function.update_noteq hbi] at hb
      exact hbi (inv.mutex b i hb hin)
    rw [ha2, hb2]
  held := fun _ _ => inv.held i hin
  fresh := by
    intro a last ha
    by_cases hai : a = i
    · subst hai
      simp only [Function.update_same] at ha
      exact hp last ha
    · simp only [Function.update_noteq hai] at ha
      have hc : (st.pc a).inCrit = true := by rw [ha]; rfl
      exact absurd (inv.mutex a i hc hin) hai

/-- The goroutine that holds the mutex releases it. -/
theorem MutexInv.leave {n : Nat} {gs : Fin n → Goroutine} {st : Race n}
    (inv : MutexInv gs st) (i : Fin n) (hin : (st.pc i).inCrit = true) (p : Pc)
    (hp : p.inCrit = false) :
    MutexInv gs { st with locked := false, pc := Function.update st.pc i p } where
  mutex := by
    intro a b ha _
    by_cases hai : a = i
    · subst hai
      simp only [Function.update_same, hp] at ha
      exact Bool.noConfusion ha
    · simp only [Function.update_noteq hai] at ha
      exact absurd (inv.mutex a i ha hin) hai
  held := by
    intro a ha
    by_cases hai : a = i
    · subst hai
      simp only [Function.update_same, hp] at ha
      exact Bool.noConfusion ha
    · simp only [Function.update_noteq hai] at ha
      exact absurd (inv.mutex a i ha hin) hai
  fresh := by
    intro a last ha
    by_cases hai : a = i
    · subst hai
      simp only [Function.update_same] at ha
      rw [ha] at hp
      exact Bool.noConfusion hp
    · simp only [Function.update_noteq hai] at ha
      have hc : (st.pc a).inCrit = true := by rw [ha]; rfl
      exact absurd (inv.mutex a i hc hin) hai

/-- A step that changes neither the ledger nor whether the goroutine has decided, stored
or been refused. -/
theorem LedgerInv.same_flags {n : Nat} {interval : Duration} {gs : Fin n → Goroutine}
    {ledger : Ledger} {d : Addr} {st : Race n} (inv : LedgerInv interval gs ledger d st)
    (i : Fin n) (p : Pc) (locked2 : Bool) (hdec : p.decided = (st.pc i).decided)
    (hsto : p.stored = (st.pc i).stored) (hrej : p.rejected = (st.pc i).rejected) :
    LedgerInv interval gs ledger d
      { st with locked := locked2, pc := Function.update st.pc i p } := by
  have hd : ∀ a, (Function.update st.pc i p a).decided = (st.pc a).decided := by
    intro a
    by_cases hai : a = i
    · subst hai; simp only [Function.update_same, hdec]
    · simp only [Function.update_noteq hai]
  have hs : ∀ a, (Function.update st.pc i p a).stored = (st.pc a).stored := by
    intro a
    by_cases hai : a = i
    · subst hai; simp only [Function.update_same, hsto]
    · simp only [Function.update_noteq hai]
  have hr : ∀ a, (Function.update st.pc i p a).rejected = (st.pc a).rejected := by
    intro a
    by_cases hai : a = i
    · subst hai; simp only [Function.update_same, hrej]
    · simp only [Function.update_noteq hai]
  constructor
  · intro a b hda hdb ha hb
    simp only [hd] at ha hb
    exact inv.one a b hda hdb ha hb
  · intro a hda ha
    simp only [hs] at ha
    exact inv.entry a hda ha
  · intro h
    simp only [hd] at h
    exact inv.untouched h
  · intro a hda ha
    simp only [hr] at ha
    simp only [hd]
    exact inv.refused a hda ha
  · intro a hda ha
    simp only [hd] at ha
    exact inv.eligible a hda ha

theorem Pc.stored_of_decided (p : Pc) (hd : p.decided = true) (hc : p.inCrit = false) :
    p.stored = true := by
  cases p <;> simp_all [Pc.decided, Pc.inCrit, Pc.stored]

/-- While goroutine `i` is at the check of line 78, no goroutine of its destination that
has decided to launch can be within one interval of it unless `i` is refused. -/
theorem LedgerInv.no_decided {n : Nat} {interval : Duration} {gs : Fin n → Goroutine}
    {ledger : Ledger} {d : Addr} {st : Race n} (inv : LedgerInv interval gs ledger d st)
    (mu : MutexInv gs st) (i : Fin n) (last : Time) (hpc : st.pc i = .check last)
    (hdi : (gs i).dst = d) (hnlt : ¬ Time.Sub (gs i).now last < interval)
    (hwin : ∀ a b, (gs a).dst = d → (gs b).dst = d → (gs a).now - (gs b).now < interval) :
    ∀ a, (gs a).dst = d → (st.pc a).decided = false := by
  intro a hda
  by_contra hdec
  have hdec : (st.pc a).decided = true := by simpa using hdec
  have hin : (st.pc i).inCrit = true := by rw [hpc]; rfl
  have hai : a ≠ i := by
    intro e; rw [e, hpc] at hdec; exact Bool.noConfusion hdec
  have hout : (st.pc a).inCrit = false := by
    by_contra hc
    have hc : (st.pc a).inCrit = true := by simpa using hc
    exact hai (mu.mutex a i hc hin)
  have hent := inv.entry a hda (Pc.stored_of_decided _ hdec hout)
  have hlast : last = (gs a).now := by
    rw [mu.fresh i last hpc, hdi]
    simp [Ledger.lookup, hent]
  have hpos : minDuration < interval := by
    have := hwin a a hda hda
    unfold minDuration
    simp only [Duration, Time] at *
    omega
  exact hnlt (by rw [hlast]; exact Time.Sub_lt_of_lt _ _ _ (hwin i a hdi hda) hpos)

/-- The check of line 78 refuses the goroutine. -/
theorem LedgerInv.reject {n : Nat} {interval : Duration} {gs : Fin n → Goroutine}
    {ledger : Ledger} {d : Addr} {st : Race n} (inv : LedgerInv interval gs ledger d st)
    (mu : MutexInv gs st) (i : Fin n) (last : Time) (hpc : st.pc i = .check last)
    (hlt : Time.Sub (gs i).now last < interval) :
    LedgerInv interval gs ledger d
      { st with pc := Function.update st.pc i .unlockReturn } := by
  have hd : ∀ a, (Function.update st.pc i Pc.unlockReturn a).decided = (st.pc a).decided := by
    intro a
    by_cases hai : a = i
    · subst hai; simp only [Function.update_same, hpc]; rfl
    · simp only [Function.update_noteq hai]
  constructor
  · intro a b hda hdb ha hb
    simp only [hd] at ha hb
    exact inv.one a b hda hdb ha hb
  · intro a hda ha
    by_cases hai : a = i
    · subst hai
      simp only [Function.update_same] at ha
      exact Bool.noConfusion ha
    · simp only [Function.update_noteq hai] at ha
      exact inv.entry a hda ha
  · intro h
    simp only [hd] at h
    exact inv.untouched h
  · intro a hda ha
    simp only [hd]
    by_cases hai : a = i
    · subst hai
      by_cases hex : ∃ k, (gs k).dst = d ∧ (st.pc k).decided = true
      · exact Or.inl hex
      · refine Or.inr ?_
        have hall : ∀ k, (gs k).dst = d → (st.pc k).decided = false := by
          intro k hdk
          by_contra hk
          exact hex ⟨k, hdk, by simpa using hk⟩
        have hL := inv.untouched hall
        have hlast : last = ledger.lookup d := by
          rw [mu.fresh a last hpc, hda]
          simp [Ledger.lookup, hL]
        rw [← hlast]; exact hlt
    · simp only [Function.update_noteq hai] at ha
      exact inv.refused a hda ha
  · intro a hda ha
    simp only [hd] at ha
    exact inv.eligible a hda ha

/-- The check of line 78 lets the goroutine through. -/
theorem LedgerInv.pass {n : Nat} {interval : Duration} {gs : Fin n → Goroutine}
    {ledger : Ledger} {d : Addr} {st : Race n} (inv : LedgerInv interval gs ledger d st)
    (mu : MutexInv gs st) (i : Fin n) (last : Time) (hpc : st.pc i = .check last)
    (hnlt : ¬ Time.Sub (gs i).now last < interval)
    (hwin : ∀ a b, (gs a).dst = d → (gs b).dst = d → (gs a).now - (gs b).now < interval) :
    LedgerInv interval gs ledger d { st with pc := Function.update st.pc i .store } := by
  have hold : (st.pc i).decided = false := by rw [hpc]; rfl
  constructor
  · intro a b hda hdb ha hb
    by_cases hai : a = i
    · by_cases hbi : b = i
      · rw [hai, hbi]
      · simp only [Function.update_noteq hbi] at hb
        have := LedgerInv.no_decided inv mu i last hpc (hai ▸ hda) hnlt hwin b hdb
        rw [this] at hb
        exact Bool.noConfusion hb
    · simp only [Function.update_noteq hai] at ha
      by_cases hbi : b = i
      · have := LedgerInv.no_decided inv mu i last hpc (hbi ▸ hdb) hnlt hwin a hda
        rw [this] at ha
        exact Bool.noConfusion ha
      · simp only [Function.update_noteq hbi] at hb
        exact inv.one a b hda hdb ha hb
  · intro a hda ha
    by_cases hai : a = i
    · subst hai
      simp only [Function.update_same] at ha
      exact Bool.noConfusion ha
    · simp only [Function.update_noteq hai] at ha
      exact inv.entry a hda ha
  · intro h
    apply inv.untouched
    intro a hda
    by_cases hai : a = i
    · rw [hai]; exact hold
    · have := h a hda
      simpa only [Function.update_noteq hai] using this
  · intro a hda ha
    by_cases hai : a = i
    · subst hai
      simp only [Function.update_same] at ha
      exact Bool.noConfusion ha
    · simp only [Function.update_noteq hai] at ha
      rcases inv.refused a hda ha with ⟨k, hdk, hk⟩ | h
      · refine Or.inl ⟨k, hdk, ?_⟩
        have hki : k ≠ i := by
          intro e; rw [e, hold] at hk; exact Bool.noConfusion hk
        simpa only [Function.update_noteq hki] using hk
      · exact Or.inr h
  · intro a hda ha
    by_cases hai : a = i
    · subst hai
      have hall := LedgerInv.no_decided inv mu a last hpc hda hnlt hwin
      have hL := inv.untouched hall
      have hlast : last = ledger.lookup d := by
        rw [mu.fresh a last hpc, hda]
        simp [Ledger.lookup, hL]
      rw [← hlast]; exact hnlt
    · simp only [Function.update_noteq hai] at ha
      exact inv.eligible a hda ha

/-- The assignment of line 82. -/
theorem LedgerInv.store_step {n : Nat} {interval : Duration} {gs : Fin n → Goroutine}
    {ledger : Ledger} {d : Addr} {st : Race n} (inv : LedgerInv interval gs ledger d st)
    (i : Fin n) (hpc : st.pc i = .store) :
    LedgerInv interval gs ledger d
      { st with
        lastSent := st.lastSent.store (gs i).dst (gs i).now
        pc := Function.update st.pc i .unlock } := by
  have hold : (st.pc i).decided = true := by rw [hpc]; rfl
  have hd : ∀ a, (Function.update st.pc i Pc.unlock a).decided = (st.pc a).decided := by
    intro a
    by_cases hai : a = i
    · subst hai; simp only [Function.update_same, hpc]; rfl
    · simp only [Function.update_noteq hai]
  constructor
  · intro a b hda hdb ha hb
    simp only [hd] at ha hb
    exact inv.one a b hda hdb ha hb
  · intro a hda ha
    by_cases hai : a = i
    · subst hai
      show st.lastSent.store (gs a).dst (gs a).now d = some (gs a).now
      rw [hda]; exact store_self _ _ _
    · simp only [Function.update_noteq hai] at ha
      have hsa : (st.pc a).decided = true := by
        cases hp : st.pc a <;> simp_all [Pc.stored, Pc.decided]
      by_cases hdi : (gs i).dst = d
      · exact absurd (inv.one a i hda hdi hsa hold) hai
      · show st.lastSent.store (gs i).dst (gs i).now d = some (gs a).now
        rw [store_other _ _ _ _ (fun e => hdi e.symm)]
        exact inv.entry a hda ha
  · intro h
    simp only [hd] at h
    have hdi : (gs i).dst ≠ d := by
      intro e
      have := h i e
      rw [hold] at this
      exact Bool.noConfusion this
    show st.lastSent.store (gs i).dst (gs i).now d = ledger d
    rw [store_other _ _ _ _ (fun e => hdi e.symm)]
    exact inv.untouched h
  · intro a hda ha
    simp only [hd]
    by_cases hai : a = i
    · subst hai
      simp only [Function.update_same] at ha
      exact Bool.noConfusion ha
    · simp only [Function.update_noteq hai] at ha
      exact inv.refused a hda ha
  · intro a hda ha
    simp only [hd] at ha
    exact inv.eligible a hda ha

/-- Every statement of every goroutine keeps the invariant. -/
theorem Race.step_inv {n : Nat} {interval : Duration} {gs : Fin n → Goroutine}
    {ledger : Ledger} {d : Addr} (st : Race n) (i : Fin n) (mu : MutexInv gs st)
    (inv : LedgerInv interval gs ledger d st)
    (hwin : ∀ a b, (gs a).dst = d → (gs b).dst = d → (gs a).now - (gs b).now < interval) :
    MutexInv gs (Race.step interval gs st i) ∧
      LedgerInv interval gs ledger d (Race.step interval gs st i) := by
  unfold Race.step
  cases hpc : st.pc i with
  | lock =>
    by_cases hl : st.locked = true
    · simp only [hl, if_true]
      exact ⟨mu, inv⟩
    · have hfree : st.locked = false := by simpa using hl
      simp only [hfree, Bool.false_eq_true, if_false]
      exact ⟨mu.enter i hfree .read (fun _ h => Pc.noConfusion h),
        inv.same_flags i .read true (by rw [hpc]; rfl) (by rw [hpc]; rfl) (by rw [hpc]; rfl)⟩
  | read =>
    have hin : (st.pc i).inCrit = true := by rw [hpc]; rfl
    exact ⟨mu.stay i hin _ st.lastSent (fun last h => (Pc.check.inj h).symm),
      inv.same_flags i _ st.locked (by rw [hpc]; rfl) (by rw [hpc]; rfl) (by rw [hpc]; rfl)⟩
  | check last =>
    have hin : (st.pc i).inCrit = true := by rw [hpc]; rfl
    by_cases hlt : Time.Sub (gs i).now last < interval
    · simp only [hlt, if_true]
      exact ⟨mu.stay i hin .unlockReturn st.lastSent (fun _ h => Pc.noConfusion h),
        inv.reject mu i last hpc hlt⟩
    · simp only [hlt, if_false]
      exact ⟨mu.stay i hin .store st.lastSent (fun _ h => Pc.noConfusion h),
        inv.pass mu i last hpc hlt hwin⟩
  | unlockReturn =>
    have hin : (st.pc i).inCrit = true := by rw [hpc]; rfl
    exact ⟨mu.leave i hin .returned rfl,
      inv.same_flags i .returned false (by rw [hpc]; rfl) (by rw [hpc]; rfl)
        (by rw [hpc]; rfl)⟩
  | store =>
    have hin : (st.pc i).inCrit = true := by rw [hpc]; rfl
    exact ⟨mu.stay i hin .unlock _ (fun _ h => Pc.noConfusion h), inv.store_step i hpc⟩
  | unlock =>
    have hin : (st.pc i).inCrit = true := by rw [hpc]; rfl
    exact ⟨mu.leave i hin .launch rfl,
      inv.same_flags i .launch false (by rw [hpc]; rfl) (by rw [hpc]; rfl)
        (by rw [hpc]; rfl)⟩
  | returned => exact ⟨mu, inv⟩
  | launch => exact ⟨mu, inv⟩

/-- The invariant holds after every schedule. -/
theorem Race.run_inv {n : Nat} {interval : Duration} {gs : Fin n → Goroutine}
    {ledger : Ledger} {d : Addr}
    (hwin : ∀ a b, (gs a).dst = d → (gs b).dst = d → (gs a).now - (gs b).now < interval)
    (schedule : List (Fin n)) :
    ∀ st : Race n, MutexInv gs st → LedgerInv interval gs ledger d st →
      MutexInv gs (Race.run interval gs st schedule) ∧
        LedgerInv interval gs ledger d (Race.run interval gs st schedule) := by
  induction schedule with
  | nil => intro st mu inv; exact ⟨mu, inv⟩
  | cons i rest ih =>
    intro st mu inv
    obtain ⟨mu2, inv2⟩ := Race.step_inv st i mu inv hwin
    exact ih _ mu2 inv2

/-- A goroutine that runs through the section alone does what `maybePreflight` does in
one piece: the ledger afterwards is that of the reference rate limiter, and the goroutine
launches its probe exactly when the rate limiter admits. -/
theorem Race.alone {n : Nat} (interval : Duration) (gs : Fin n → Goroutine) (st : Race n)
    (i : Fin n) (hpc : st.pc i = .lock) (hfree : st.locked = false) :
    (Race.run interval gs st [i, i, i, i, i]).lastSent =
      (admitRef st.lastSent (gs i).dst (gs i).now interval).2 ∧
    (Race.run interval gs st [i, i, i, i, i]).locked = false ∧
    (Race.run interval gs st [i, i, i, i, i]).pc i =
      (if (admitRef st.lastSent (gs i).dst (gs i).now interval).1 then Pc.launch
       else Pc.returned) := by
  have hadm : admitRef st.lastSent (gs i).dst (gs i).now interval =
      if Time.Sub (gs i).now (st.lastSent.lookup (gs i).dst) < interval then
        (false, st.lastSent)
      else (true, st.lastSent.store (gs i).dst (gs i).now) := by
    unfold admitRef Ledger.lookup Ledger.store Time.zero
    cases st.lastSent (gs i).dst <;> rfl
  rw [hadm]
  by_cases hlt : Time.Sub (gs i).now (st.lastSent.lookup (gs i).dst) < interval
  · simp [Race.run, Race.step, hpc, hfree, hlt]
  · simp [Race.run, Race.step, hpc, hfree, hlt]

/-- C13, amended: goroutines that are in the rate-limit section at once for the same
destination, with clock readings within one interval of each other, launch at most one
probe among them under every interleaving of their statements, and at most one of all
goroutines is between `Lock()` and `Unlock()` at any time; once they have all left the
section, exactly one has launched a probe if at least one of them is admissible against
the ledger entry the destination had before them, and none has if none is. -/
theorem one_probe_under_mutex {n : Nat} (interval : Duration) (gs : Fin n → Goroutine)
    (ledger : Ledger) (d : Addr) (schedule : List (Fin n))
    (hwin : ∀ a b, (gs a).dst = d → (gs b).dst = d → (gs a).now - (gs b).now < interval) :
    (∀ i j, (gs i).dst = d → (gs j).dst = d →
      (Race.run interval gs (Race.init ledger) schedule).pc i = .launch →
      (Race.run interval gs (Race.init ledger) schedule).pc j = .launch → i = j) ∧
    (∀ i j, ((Race.run interval gs (Race.init ledger) schedule).pc i).inCrit = true →
      ((Race.run interval gs (Race.init ledger) schedule).pc j).inCrit = true → i = j) ∧
    ((∀ i, (gs i).dst = d →
        ((Race.run interval gs (Race.init ledger) schedule).pc i).finished = true) →
      (∃ i, (gs i).dst = d ∧ ¬ Time.Sub (gs i).now (ledger.lookup d) < interval) →
      ∃ i, (gs i).dst = d ∧
        (Race.run interval gs (Race.init ledger) schedule).pc i = .launch ∧
        (Race.run interval gs (Race.init ledger) schedule).lastSent d = some (gs i).now) ∧
    ((∀ i, (gs i).dst = d → Time.Sub (gs i).now (ledger.lookup d) < interval) →
      (∀ i, (gs i).dst = d →
        (Race.run interval gs (Race.init ledger) schedule).pc i ≠ .launch) ∧
      (Race.run interval gs (Race.init ledger) schedule).lastSent d = ledger d) := by
  obtain ⟨mu, inv⟩ := Race.run_inv hwin schedule (Race.init ledger)
    (MutexInv.mutex_start gs ledger) (LedgerInv.ledger_start interval gs ledger d)
  refine ⟨?_, mu.mutex, ?_, ?_⟩
  · intro i j hdi hdj hi hj
    exact inv.one i j hdi hdj (by rw [hi]; rfl) (by rw [hj]; rfl)
  · intro hfin ⟨i, hdi, hel⟩
    have hdec : ∃ k, (gs k).dst = d ∧
        ((Race.run interval gs (Race.init ledger) schedule).pc k).decided = true := by
      have hf := hfin i hdi
      cases hp : (Race.run interval gs (Race.init ledger) schedule).pc i with
      | launch => exact ⟨i, hdi, by rw [hp]; rfl⟩
      | returned =>
        rcases inv.refused i hdi (by rw [hp]; rfl) with hk | hlt
        · exact hk
        · exact absurd hlt hel
      | lock => rw [hp] at hf; exact Bool.noConfusion hf
      | read => rw [hp] at hf; exact Bool.noConfusion hf
      | check last => rw [hp] at hf; exact Bool.noConfusion hf
      | unlockReturn => rw [hp] at hf; exact Bool.noConfusion hf
      | store => rw [hp] at hf; exact Bool.noConfusion hf
      | unlock => rw [hp] at hf; exact Bool.noConfusion hf
    obtain ⟨k, hdk, hk⟩ := hdec
    have hf := hfin k hdk
    have hl : (Race.run interval gs (Race.init ledger) schedule).pc k = .launch := by
      cases hp : (Race.run interval gs (Race.init ledger) schedule).pc k <;>
        simp_all [Pc.finished, Pc.decided]
    exact ⟨k, hdk, hl, inv.entry k hdk (by rw [hl]; rfl)⟩
  · intro hall
    have hnone : ∀ i, (gs i).dst = d →
        ((Race.run interval gs (Race.init ledger) schedule).pc i).decided = false := by
      intro i hdi
      by_contra hdec
      exact inv.eligible i hdi (by simpa using hdec) (hall i hdi)
    refine ⟨?_, inv.untouched hnone⟩
    intro i hdi hl
    have := hnone i hdi
    rw [hl] at this
    exact Bool.noConfusion this

set_option maxRecDepth 100000 in
/-- Counterexample to C13 as stated: the destination had a probe one millisecond before
two concurrent matching sends, one second interval; both goroutines are within one
interval window and run to the end, and neither launches a probe. -/
theorem burst_after_probe_launches_none :
    (∀ a b : Fin 2,
      ((fun _ => ⟨⟨1, ""⟩, unixEpoch + Millisecond⟩ : Fin 2 → Goroutine) a).now -
        ((fun _ => ⟨⟨1, ""⟩, unixEpoch + Millisecond⟩ : Fin 2 → Goroutine) b).now
          < Second) ∧
    (∀ i : Fin 2,
      ((Race.run Second (fun _ => ⟨⟨1, ""⟩, unixEpoch + Millisecond⟩)
        (Race.init fun _ => some unixEpoch) [0, 1, 0, 0, 1, 0, 1, 1, 1, 1]).pc i).finished
          = true) ∧
    ¬ ∃ i : Fin 2,
      (Race.run Second (fun _ => ⟨⟨1, ""⟩, unixEpoch + Millisecond⟩)
        (Race.init fun _ => some unixEpoch) [0, 1, 0, 0, 1, 0, 1, 1, 1, 1]).pc i
          = .launch := by
  decide

set_option maxRecDepth 100000 in
/-- Witness of C13, amended: no entry before, two goroutines one millisecond apart whose
statements interleave; the one that takes the mutex first launches the probe. -/
theorem one_probe_under_mutex_witness :
    ∃ i : Fin 2,
      (Race.run Second
        (fun k => ⟨⟨1, ""⟩, unixEpoch + (k : Nat) * Millisecond⟩ : Fin 2 → Goroutine)
        (Race.init fun _ => none) [0, 1, 0, 0, 1, 0, 0, 1, 1, 1, 1]).pc i = .launch ∧
      (Race.run Second
        (fun k => ⟨⟨1, ""⟩, unixEpoch + (k : Nat) * Millisecond⟩ : Fin 2 → Goroutine)
        (Race.init fun _ => none) [0, 1, 0, 0, 1, 0, 0, 1, 1, 1, 1]).lastSent ⟨1, ""⟩ =
          some (unixEpoch + (i : Nat) * Millisecond) := by
  obtain ⟨i, -, hl, he⟩ := (one_probe_under_mutex Second
    (fun k => ⟨⟨1, ""⟩, unixEpoch + (k : Nat) * Millisecond⟩ : Fin 2 → Goroutine)
    (fun _ => none) ⟨1, ""⟩ [0, 1, 0, 0, 1, 0, 0, 1, 1, 1, 1] (by decide)).2.2.1
    (by decide) (by decide)
  exact ⟨i, hl, he⟩

end Preflightbind
